import Mathlib

/-!
Shallow embedding of the cozy scan/import pipeline
(`cozy/media/importer.py` and `cozy/architecture/event_sender.py`).

File paths are modelled as abstract identifiers (`Nat`).  External
collaborators (filesystem, media detector, settings, filesystem monitor) are
modelled as an explicit environment `Env` of pure functions; exceptions are
modelled with `Except`.  The library collaborator (`cozy.model.library`) is
not part of the sources, so its observable interface (`files`, `chapters`,
`insert_many`) is modelled from the spec where noted.
-/

namespace Cozy

/-- Abstract file paths (Python `str` paths). -/
abbrev Path := Nat

/-- One entry of the persistence collaborator's `chapters` sequence:
`{file: path, modified: int}` (modification time in whole seconds). -/
structure Chapter where
  file : Path
  modified : Int
deriving DecidableEq, Repr

/-- Structured metadata extracted from a successfully probed file.  The
pipeline treats it as opaque; the persistence layer derives the imported
path and its stored modification timestamp from it. -/
structure MediaRecord where
  file : Path
  modified : Int
deriving DecidableEq, Repr

/-- Value returned by `Importer.import_file`:
Python `None` (`nothing`), a `str` (the undetected path from
`unquote(urlparse(str(e)).path)`), or a media-data object. -/
inductive ImportResult where
  | nothing
  | undetected (path : Path)
  | media (r : MediaRecord)
deriving DecidableEq, Repr

/-- `isinstance(file, str)` on an `import_file` result. -/
def ImportResult.isStr : ImportResult → Bool
  | .undetected _ => true
  | _ => false

/-- Extract the undetected path of a result, if it is a `str`. -/
def ImportResult.undetectedPath : ImportResult → Option Path
  | .undetected p => some p
  | _ => none

/-- Outcome of `MediaDetector(path).get_media_data()` as observed by
`import_file`: a media-data object, one of the two declared exception
classes, or any other (uncaught) exception, identified by a code. -/
inductive ProbeOutcome where
  | ok (r : MediaRecord)
  | notAnAudioFile
  | couldNotBeDiscovered (decodedPath : Path)
  | raises (e : Nat)
deriving DecidableEq, Repr

/-- A configured storage location: `{path, external}`. -/
structure Storage where
  path : Path
  external : Bool
deriving DecidableEq, Repr

/-- Result of `FilesystemMonitor.is_storage_online`: a boolean answer, or
the `StorageNotFound` exception. -/
inductive OnlineStatus where
  | online
  | offline
  | storageNotFound
deriving DecidableEq, Repr

/-- The external collaborators of the importer, as pure functions:
`os.path.isfile`, `os.path.exists`, `int(os.path.getmtime _)` (`none` when
the call raises because the file vanished), the media detector, `os.walk`
(all files recursively under a root; `os.walk` itself swallows listing
errors), and the settings / filesystem-monitor collaborators. -/
structure Env where
  isfile : Path → Bool
  pathExists : Path → Bool
  mtime : Path → Option Int
  probe : Path → ProbeOutcome
  walk : Path → List Path
  storage_locations : List Storage
  external_storage_locations : List Storage
  is_storage_online : Storage → OnlineStatus

/-- State of the persistence collaborator visible to the importer:
`files` (imported paths) and `chapters` (one timestamp entry per imported
file). -/
structure Library where
  files : List Path
  chapters : List Chapter
deriving DecidableEq, Repr

/-- Exceptions that can propagate out of the pipeline. `missingChapter`
models the `StopIteration` raised by `next()` when no chapter matches
(surfacing as a `RuntimeError` under PEP 479), `mtimeError` the `OSError`
of `os.path.getmtime` on a vanished file, `probeError` an exception from
`get_media_data` other than the two caught classes, and `outOfFuel` is the
(provably unreachable) bound on loop iterations used to keep the batch
loop structural. -/
inductive ScanError where
  | missingChapter (p : Path)
  | mtimeError (p : Path)
  | probeError (e : Nat)
  | outOfFuel
deriving DecidableEq, Repr

/-- `ScanStatus` enum of the importer. -/
inductive ScanStatus where
  | STARTED
  | SUCCESS
  | ABORTED
  | FINISHED_WITH_ERRORS
deriving DecidableEq, Repr

/-- Observable events of one scan: the emitted `("scan", status)` and
`("import-failed", set)` events, plus instrumentation markers recording
each completed batch barrier (with the slice size) and each
`insert_many` call (with its argument). -/
inductive Event where
  | scanStatus (s : ScanStatus)
  | importFailed (files : List Path)
  | batchDone (size : Nat)
  | insertCall (records : List ImportResult)
deriving DecidableEq, Repr

/-- Insert an element at the back unless already present (one step of
building a Python `set` in insertion order). -/
def insertIfNew {α : Type} [DecidableEq α] (acc : List α) (x : α) : List α :=
  if x ∈ acc then acc else acc ++ [x]

/-- A Python `set` built from a list, as an insertion-ordered
duplicate-free list. -/
def setOfList {α : Type} [DecidableEq α] (xs : List α) : List α :=
  xs.foldl insertIfNew []

/-- `undetected_files.update({...})`: extend the running set with new
paths, keeping it duplicate-free. -/
def addUndetected (u : List Path) (ps : List Path) : List Path :=
  ps.foldl insertIfNew u

/-- `Importer.import_file`: `None` when the path is not a regular file,
otherwise the probe's media data; `NotAnAudioFile` is converted to `None`,
`AudioFileCouldNotBeDiscovered` to the decoded path string; any other
exception propagates. -/
def import_file (env : Env) (path : Path) : Except ScanError ImportResult :=
  if env.isfile path then
    match env.probe path with
    | .ok r => .ok (.media r)
    | .notAnAudioFile => .ok .nothing
    | .couldNotBeDiscovered p => .ok (.undetected p)
    | .raises e => .error (.probeError e)
  else
    .ok .nothing

/-- The per-file body of the `_filter_unchanged_files` generator: yield a
path not in `imported_files`; for an indexed path, look up the first
matching chapter (`next(...)` raises when there is none) and yield only
when `int(os.path.getmtime(file))` strictly exceeds the stored timestamp. -/
def filterFile (importedFiles : List Path) (chapters : List Chapter)
    (env : Env) (file : Path) : Except ScanError (Option Path) :=
  if file ∈ importedFiles then
    match chapters.find? (fun c => c.file == file) with
    | Option.none => .error (.missingChapter file)
    | some chapter =>
      match env.mtime file with
      | Option.none => .error (.mtimeError file)
      | some t => if chapter.modified < t then .ok (some file) else .ok Option.none
  else
    .ok (some file)

/-- Run the `_filter_unchanged_files` generator to exhaustion against a
fixed library state (`imported_files` is read once, at generator start). -/
def filterAll (importedFiles : List Path) (chapters : List Chapter)
    (env : Env) : List Path → Except ScanError (List Path)
  | [] => .ok []
  | f :: rest =>
    match filterFile importedFiles chapters env f with
    | .error e => .error e
    | .ok Option.none => filterAll importedFiles chapters env rest
    | .ok (some p) =>
      match filterAll importedFiles chapters env rest with
      | .error e => .error e
      | .ok out => .ok (p :: out)

/-- `Importer._filter_unchanged_files` run standalone over a list of
candidates. -/
def filter_unchanged_files (env : Env) (lib : Library) (files : List Path) :
    Except ScanError (List Path) :=
  filterAll lib.files lib.chapters env files

/-- `itertools.islice(files_to_scan, n)` where `files_to_scan` is the
suspended `_filter_unchanged_files` generator: pull up to `n` yielded
paths, consuming candidates from `remaining`; the chapter lookups happen
at pull time against the chapter sequence passed in.  Returns the pulled
slice and the candidates not yet consumed. -/
def pullFiltered (importedFiles : List Path) (chapters : List Chapter)
    (env : Env) : Nat → List Path → Except ScanError (List Path × List Path)
  | _, [] => .ok ([], [])
  | 0, rest => .ok ([], rest)
  | n + 1, f :: rest =>
    match filterFile importedFiles chapters env f with
    | .error e => .error e
    | .ok Option.none => pullFiltered importedFiles chapters env (n + 1) rest
    | .ok (some p) =>
      match pullFiltered importedFiles chapters env n rest with
      | .error e => .error e
      | .ok (b, rem) => .ok (p :: b, rem)

/-- `pool.map(self.import_file, slice)`: probe every path of the slice,
keeping result order; an exception raised in a worker is re-raised by
`map` in the coordinator. -/
def poolMap (env : Env) : List Path → Except ScanError (List ImportResult)
  | [] => .ok []
  | p :: rest =>
    match import_file env p with
    | .error e => .error e
    | .ok r =>
      match poolMap env rest with
      | .error e => .error e
      | .ok rs => .ok (r :: rs)

/-- Replace the chapter entry for `r.file` by `r`'s data, or append one if
none exists. -/
def upsertChapter (chs : List Chapter) (r : MediaRecord) : List Chapter :=
  if chs.any (fun c => c.file == r.file) then
    chs.map (fun c => if c.file == r.file then ⟨r.file, r.modified⟩ else c)
  else
    chs ++ [⟨r.file, r.modified⟩]

/-- Modelled from the spec: `Library.insert_many` (`cozy.model.library`,
not among the sources) "atomically add[s] a batch of MediaRecords" (§6),
`files` being the set of imported paths and `chapters` keeping one
`{file, modified}` entry per imported file.  Each media record's path is
added to `files` if new and its chapter entry is replaced (or created);
elements of the argument that are not media records (the Python `None`s
that `_execute_import` fails to filter out) are ignored. -/
def Library.insert_many (lib : Library) (records : List ImportResult) : Library :=
  records.foldl
    (fun l r =>
      match r with
      | .media rec =>
        ⟨if rec.file ∈ l.files then l.files else l.files ++ [rec.file],
         upsertChapter l.chapters rec⟩
      | _ => l)
    lib

/-- Running state of `_execute_import`: the library (mutated by
`insert_many`), the accumulated `undetected_files` set, and the trace of
batch barriers and insert calls. -/
structure ImportState where
  lib : Library
  undetected : List Path
  trace : List Event
deriving DecidableEq, Repr

/-- The string results of a batch, as the paths they carry:
`{file for file in media_files if isinstance(file, str)}`. -/
def undetectedOf (results : List ImportResult) : List Path :=
  results.filterMap ImportResult.undetectedPath

/-- The non-string results of a batch as a set:
`{file for file in media_files if not isinstance(file, str)}`.  Note this
keeps the `None`s (Python `None` is not a `str`). -/
def mediaSet (results : List ImportResult) : List ImportResult :=
  setOfList (results.filter (fun r => !r.isStr))

/-- The batch loop of `Importer._execute_import`.  Each iteration pulls up
to 100 paths through the suspended filter generator (whose chapter lookups
see the current library), probes them all (`pool.map`, propagating the
first worker exception), adds the string results to the undetected set,
builds the set of non-string results, and either calls `insert_many` and
loops, or breaks when that set is empty.  `fuel` bounds the number of
iterations; `execute_import` supplies enough fuel for the bound to be
unreachable. -/
def importLoop (importedFiles : List Path) (env : Env) :
    Nat → ImportState → List Path → Except ScanError ImportState
  | 0, _, _ => .error .outOfFuel
  | fuel + 1, st, remaining =>
    match pullFiltered importedFiles st.lib.chapters env 100 remaining with
    | .error e => .error e
    | .ok (batch, rem) =>
      match poolMap env batch with
      | .error e => .error e
      | .ok results =>
        if (mediaSet results).length ≠ 0 then
          importLoop importedFiles env fuel
            ⟨st.lib.insert_many (mediaSet results),
             addUndetected st.undetected (undetectedOf results),
             st.trace ++ [.batchDone batch.length, .insertCall (mediaSet results)]⟩
            rem
        else
          .ok ⟨st.lib, addUndetected st.undetected (undetectedOf results),
               st.trace ++ [.batchDone batch.length]⟩

/-- `Importer._execute_import` on a candidate list.  `imported_files` is
read once at the filter generator's first pull, i.e. before any insert, so
it is the initial `lib.files`. -/
def execute_import (env : Env) (lib : Library) (files_to_scan : List Path) :
    Except ScanError ImportState :=
  importLoop lib.files env (files_to_scan.length + 1) ⟨lib, [], []⟩ files_to_scan

/-- Modelled from the spec: §3 describes the ImportedFileIndex as a
"read-only snapshot taken once at the start of a scan", stable for the
run.  This variant of the batch loop filters every batch against the
chapter sequence captured at scan start (while inserts still accumulate),
for comparison with `importLoop`, whose lookups see the live chapters. -/
def importLoopStable (importedFiles : List Path) (chapters0 : List Chapter) (env : Env) :
    Nat → ImportState → List Path → Except ScanError ImportState
  | 0, _, _ => .error .outOfFuel
  | fuel + 1, st, remaining =>
    match pullFiltered importedFiles chapters0 env 100 remaining with
    | .error e => .error e
    | .ok (batch, rem) =>
      match poolMap env batch with
      | .error e => .error e
      | .ok results =>
        if (mediaSet results).length ≠ 0 then
          importLoopStable importedFiles chapters0 env fuel
            ⟨st.lib.insert_many (mediaSet results),
             addUndetected st.undetected (undetectedOf results),
             st.trace ++ [.batchDone batch.length, .insertCall (mediaSet results)]⟩
            rem
        else
          .ok ⟨st.lib, addUndetected st.undetected (undetectedOf results),
               st.trace ++ [.batchDone batch.length]⟩

/-- `_execute_import` against a fully stable index snapshot (spec-side
variant). -/
def execute_import_stable (env : Env) (lib : Library) (files_to_scan : List Path) :
    Except ScanError ImportState :=
  importLoopStable lib.files lib.chapters env (files_to_scan.length + 1) ⟨lib, [], []⟩ files_to_scan

/-- `Importer._get_configured_storage_paths`: non-external locations, plus
external locations that are online or unknown to the monitor
(`StorageNotFound` is caught and the location kept), restricted to paths
that exist on disk. -/
def get_configured_storage_paths (env : Env) : List Path :=
  let paths := (env.storage_locations.filter (fun s => !s.external)).map Storage.path
  let paths := paths ++
    (env.external_storage_locations.filter
      (fun s =>
        match env.is_storage_online s with
        | .online => true
        | .offline => false
        | .storageNotFound => true)).map Storage.path
  paths.filter (fun p => env.pathExists p)

/-- `Importer._walk_paths_to_scan`: all files recursively under every
root. -/
def walk_paths_to_scan (env : Env) (paths : List Path) : List Path :=
  paths.flatMap env.walk

/-- `Importer.scan`: emit `("scan", STARTED)`, resolve and walk the
storage paths, run the batch loop over the lazily filtered candidates,
then emit `("scan", SUCCESS)` and, when the undetected set is non-empty,
`("import-failed", set)`.  An exception from the pipeline propagates
(`.error`). -/
def scan (env : Env) (lib : Library) : Except ScanError (List Event × ImportState) :=
  match execute_import env lib
      (walk_paths_to_scan env (get_configured_storage_paths env)) with
  | .error e => .error e
  | .ok st =>
    .ok (Event.scanStatus .STARTED ::
          (st.trace ++ [Event.scanStatus .SUCCESS] ++
            (if 0 < st.undetected.length then [Event.importFailed st.undetected] else [])),
         st)

/-- Sizes of the pulled slices, in order, read off a trace. -/
def batchSizes (tr : List Event) : List Nat :=
  tr.filterMap (fun e => match e with | .batchDone n => some n | _ => none)

/-- Arguments of the `insert_many` calls, in order, read off a trace. -/
def insertArgs (tr : List Event) : List (List ImportResult) :=
  tr.filterMap (fun e => match e with | .insertCall rs => some rs | _ => none)

/-! ### The event sender (`cozy/architecture/event_sender.py`) -/

/-- Python values as far as `EventSender` inspects them: `None`, booleans,
integers, strings, and (2-)tuples; anything else an event or payload might
be is represented by `obj`. -/
inductive PyVal where
  | none
  | pyBool (b : Bool)
  | pyInt (n : Int)
  | pyStr (s : String)
  | tup (a b : PyVal)
  | obj (id : Nat)
deriving DecidableEq, Repr

/-- Python truthiness (`not message` tests falsiness). `None`, `False`,
`0` and `""` are falsy; a 2-tuple is non-empty and hence truthy; other
objects are truthy. -/
def PyVal.truthy : PyVal → Bool
  | .none => false
  | .pyBool b => b
  | .pyInt n => n != 0
  | .pyStr s => !(s == "")
  | .tup _ _ => true
  | .obj _ => true

/-- `EventSender.emit_event`: when the event argument is a tuple and the
message is falsy, unpack the tuple into event name and message; then call
every registered listener with the pair.  The returned list holds each
listener's result, in registration order. -/
def emit_event {α : Type} (listeners : List (PyVal → PyVal → α))
    (event : PyVal) (message : PyVal) : List α :=
  match event with
  | .tup a b =>
    if message.truthy then listeners.map (fun f => f (.tup a b) message)
    else listeners.map (fun f => f a b)
  | _ => listeners.map (fun f => f event message)

/-- `EventSender.emit_event_main_thread`: `Gdk.threads_add_idle` schedules
`self.emit_event((event, message))` on the main loop — the delivered call
is `emit_event` applied to the packed tuple, with the `message` parameter
left at its default `None`. -/
def emit_event_main_thread {α : Type} (listeners : List (PyVal → PyVal → α))
    (event : PyVal) (message : PyVal) : List α :=
  emit_event listeners (.tup event message) .none

/-! ### Concrete environments used by counterexamples and witnesses -/

/-- The empty library. -/
def lib0 : Library := ⟨[], []⟩

/-- Environment in which every path is a regular file whose probe succeeds
with the record `⟨p, 0⟩`, and no storage is configured. -/
def envAll : Env :=
  { isfile := fun _ => true
    pathExists := fun _ => true
    mtime := fun _ => some 0
    probe := fun p => .ok ⟨p, 0⟩
    walk := fun _ => []
    storage_locations := []
    external_storage_locations := []
    is_storage_online := fun _ => .online }

/-- Environment with 100 undiscoverable audio files `0..99` followed by one
valid media file `100`. -/
def envC1 : Env :=
  { envAll with probe := fun p => if p == 100 then .ok ⟨p, 0⟩ else .couldNotBeDiscovered p }

/-- Environment in which no path is a regular file (every probe result is
Python `None`). -/
def envC2 : Env :=
  { envAll with isfile := fun _ => false }

/-- Environment with one configured storage location containing the single
file `5`, whose `getmtime` call fails (the file vanished between discovery
and the filter's timestamp check). -/
def envC3 : Env :=
  { envAll with
      storage_locations := [⟨0, false⟩]
      walk := fun _ => [5]
      mtime := fun _ => none }

/-- Environment for the snapshot-stability counterexample: path `200` has
current modification time 10 (its probe record carries it), every other
path has modification time 0. -/
def envC8 : Env :=
  { envAll with
      probe := fun p => .ok ⟨p, if p == 200 then 10 else 0⟩
      mtime := fun p => some (if p == 200 then 10 else 0) }

/-- Library in which `200` is imported with stored timestamp 5 (older than
its on-disk timestamp 10). -/
def libC8 : Library := ⟨[200], [⟨200, 5⟩]⟩

/-- Candidates containing `200` twice, separated by 100 new files. -/
def candsC8 : List Path := 200 :: (List.range 100 ++ [200])

/-- Environment for the idempotence counterexample: `500` and `502` are
valid media files (timestamps 7 and 9), `501` is a directory entry that is
not a regular file (e.g. a broken symlink — a stable filesystem state),
and `0..197` are undiscoverable audio files. -/
def envC9 : Env :=
  { envAll with
      isfile := fun p => p != 501
      probe := fun p =>
        if p == 500 then .ok ⟨500, 7⟩
        else if p == 502 then .ok ⟨502, 9⟩
        else .couldNotBeDiscovered p
      mtime := fun p => some (if p == 500 then 7 else if p == 502 then 9 else 0) }

/-- The candidate sequence of the idempotence counterexample. -/
def candsC9 : List Path := [500, 501] ++ List.range 198 ++ [502]

/-- The library state after the first run of the idempotence
counterexample: only `500` was imported. -/
def libC9 : Library := ⟨[500], [⟨500, 7⟩]⟩

/-- Environment for the no-reimport witness: `3` is a valid media file,
`4` is a directory entry that is not a regular file. -/
def envC9W : Env :=
  { envAll with isfile := fun p => p != 4 }

/-- Environment for the change-detection witness: path `5` has current
modification time 3. -/
def envW5 : Env :=
  { envAll with mtime := fun _ => some 3 }

/-- Library for the change-detection witness: `5` imported with stored
timestamp 1, `6` imported with stored timestamp 3. -/
def libW5 : Library := ⟨[5, 6], [⟨5, 1⟩, ⟨6, 3⟩]⟩

end Cozy

deriving instance DecidableEq for Except

namespace Cozy

/-! ### Helper lemmas about the set-building folds -/

theorem mem_insertIfNew {α : Type} [DecidableEq α] (acc : List α) (x y : α) :
    y ∈ insertIfNew acc x ↔ y ∈ acc ∨ y = x := by
  unfold insertIfNew
  split
  · next h =>
    constructor
    · exact Or.inl
    · rintro (h' | rfl)
      · exact h'
      · exact h
  · simp

theorem nodup_insertIfNew {α : Type} [DecidableEq α] (acc : List α) (x : α)
    (h : acc.Nodup) : (insertIfNew acc x).Nodup := by
  unfold insertIfNew
  split
  · exact h
  · next hx => simp [List.nodup_append, h, hx]

theorem mem_foldl_insertIfNew {α : Type} [DecidableEq α] (ps : List α) (u : List α)
    (x : α) (h : x ∈ ps.foldl insertIfNew u) : x ∈ u ∨ x ∈ ps := by
  induction ps generalizing u with
  | nil => exact Or.inl h
  | cons p rest ih =>
    rcases ih (insertIfNew u p) h with h' | h'
    · rcases (mem_insertIfNew u p x).mp h' with h'' | rfl
      · exact Or.inl h''
      · exact Or.inr (List.mem_cons_self _ _)
    · exact Or.inr (List.mem_cons_of_mem _ h')

theorem nodup_foldl_insertIfNew {α : Type} [DecidableEq α] (ps : List α) (u : List α)
    (h : u.Nodup) : (ps.foldl insertIfNew u).Nodup := by
  induction ps generalizing u with
  | nil => exact h
  | cons p rest ih => exact ih _ (nodup_insertIfNew u p h)

theorem addUndetected_nodup (u ps : List Path) (h : u.Nodup) :
    (addUndetected u ps).Nodup :=
  nodup_foldl_insertIfNew ps u h

theorem mem_setOfList {α : Type} [DecidableEq α] (xs : List α) (x : α)
    (h : x ∈ setOfList xs) : x ∈ xs := by
  rcases mem_foldl_insertIfNew xs [] x h with h' | h'
  · cases h'
  · exact h'

/-! ### Helper lemmas about `upsertChapter` and `insert_many` -/

theorem find?_map_replace (cs : List Chapter) (r : MediaRecord) (p : Path)
    (h : r.file ≠ p) :
    (cs.map (fun c => if c.file == r.file then (⟨r.file, r.modified⟩ : Chapter) else c)).find?
        (fun c => c.file == p)
      = cs.find? (fun c => c.file == p) := by
  induction cs with
  | nil => rfl
  | cons c cs ih =>
    by_cases hc : c.file = r.file
    · have hhead : (if c.file == r.file then (⟨r.file, r.modified⟩ : Chapter) else c)
          = ⟨r.file, r.modified⟩ := by simp [hc]
      have hkey1 : ((⟨r.file, r.modified⟩ : Chapter).file == p) = false :=
        beq_eq_false_iff_ne.mpr h
      have hkey2 : (c.file == p) = false := by
        rw [hc]
        exact beq_eq_false_iff_ne.mpr h
      rw [List.map_cons, hhead, List.find?_cons, List.find?_cons, hkey1, hkey2]
      exact ih
    · have hhead : (if c.file == r.file then (⟨r.file, r.modified⟩ : Chapter) else c) = c := by
        simp [hc]
      rw [List.map_cons, hhead, List.find?_cons, List.find?_cons]
      cases hcp : (c.file == p)
      · exact ih
      · rfl

theorem find?_append_one (cs : List Chapter) (x : Chapter) (p : Path)
    (hx : (x.file == p) = false) :
    (cs ++ [x]).find? (fun c => c.file == p) = cs.find? (fun c => c.file == p) := by
  induction cs with
  | nil =>
    rw [List.nil_append, List.find?_cons, hx]
  | cons c cs ih =>
    rw [List.cons_append, List.find?_cons, List.find?_cons]
    cases hcp : (c.file == p)
    · exact ih
    · rfl

theorem find?_upsert_ne (chs : List Chapter) (r : MediaRecord) (p : Path)
    (h : r.file ≠ p) :
    (upsertChapter chs r).find? (fun c => c.file == p)
      = chs.find? (fun c => c.file == p) := by
  unfold upsertChapter
  split
  · exact find?_map_replace chs r p h
  · exact find?_append_one chs ⟨r.file, r.modified⟩ p (beq_eq_false_iff_ne.mpr h)

theorem find?_map_replace_self (cs : List Chapter) (r : MediaRecord)
    (hany : cs.any (fun c => c.file == r.file) = true) :
    (cs.map (fun c => if c.file == r.file then (⟨r.file, r.modified⟩ : Chapter) else c)).find?
        (fun c => c.file == r.file)
      = some ⟨r.file, r.modified⟩ := by
  induction cs with
  | nil => cases hany
  | cons c cs ih =>
    by_cases hc : c.file = r.file
    · have hhead : (if c.file == r.file then (⟨r.file, r.modified⟩ : Chapter) else c)
          = ⟨r.file, r.modified⟩ := by simp [hc]
      have hkey : ((⟨r.file, r.modified⟩ : Chapter).file == r.file) = true := by simp
      rw [List.map_cons, hhead, List.find?_cons, hkey]
    · have hhead : (if c.file == r.file then (⟨r.file, r.modified⟩ : Chapter) else c) = c := by
        simp [hc]
      have hkey : (c.file == r.file) = false := beq_eq_false_iff_ne.mpr hc
      have hany' : cs.any (fun c => c.file == r.file) = true := by
        rcases List.any_eq_true.mp hany with ⟨c', hc', hck⟩
        rcases List.mem_cons.mp hc' with rfl | hc'
        · rw [hkey] at hck
          cases hck
        · exact List.any_eq_true.mpr ⟨c', hc', hck⟩
      rw [List.map_cons, hhead, List.find?_cons, hkey]
      exact ih hany'

theorem find?_self_append (cs : List Chapter) (r : MediaRecord)
    (hany : cs.any (fun c => c.file == r.file) = false) :
    (cs ++ [(⟨r.file, r.modified⟩ : Chapter)]).find? (fun c => c.file == r.file)
      = some ⟨r.file, r.modified⟩ := by
  induction cs with
  | nil =>
    have hkey : ((⟨r.file, r.modified⟩ : Chapter).file == r.file) = true := by simp
    rw [List.nil_append, List.find?_cons, hkey]
  | cons c cs ih =>
    have hkey : (c.file == r.file) = false := by
      cases hck : (c.file == r.file)
      · rfl
      · rw [List.any_cons, hck] at hany
        cases hany
    have hany' : cs.any (fun c => c.file == r.file) = false := by
      rw [List.any_cons, hkey] at hany
      simpa using hany
    rw [List.cons_append, List.find?_cons, hkey]
    exact ih hany'

theorem find?_upsert_self (chs : List Chapter) (r : MediaRecord) :
    (upsertChapter chs r).find? (fun c => c.file == r.file)
      = some ⟨r.file, r.modified⟩ := by
  unfold upsertChapter
  split
  · next hany => exact find?_map_replace_self chs r hany
  · next hany => exact find?_self_append chs r (by simpa using hany)

theorem find?_upsert_isSome (chs : List Chapter) (r : MediaRecord) (p : Path)
    (h : (chs.find? (fun c => c.file == p)).isSome) :
    ((upsertChapter chs r).find? (fun c => c.file == p)).isSome := by
  by_cases hf : r.file = p
  · subst hf
    simp [find?_upsert_self]
  · rw [find?_upsert_ne chs r p hf]
    exact h

theorem insert_many_files_mono (lib : Library) (recs : List ImportResult) (p : Path)
    (h : p ∈ lib.files) : p ∈ (lib.insert_many recs).files := by
  unfold Library.insert_many
  induction recs generalizing lib with
  | nil => exact h
  | cons r rest ih =>
    cases r with
    | media rec =>
      refine ih ⟨_, _⟩ ?_
      by_cases hm : rec.file ∈ lib.files <;> simp [hm, h]
    | nothing => exact ih lib h
    | undetected q => exact ih lib h

theorem insert_many_files_of_mem (lib : Library) (recs : List ImportResult)
    (rec : MediaRecord) (h : ImportResult.media rec ∈ recs) :
    rec.file ∈ (lib.insert_many recs).files := by
  induction recs generalizing lib with
  | nil => cases h
  | cons r rest ih =>
    rcases List.mem_cons.mp h with h' | h'
    · subst h'
      have hmem : rec.file ∈ (Library.insert_many lib [ImportResult.media rec]).files := by
        unfold Library.insert_many
        by_cases hm : rec.file ∈ lib.files <;> simp [hm]
      have : Library.insert_many lib (ImportResult.media rec :: rest)
          = Library.insert_many (Library.insert_many lib [ImportResult.media rec]) rest := by
        unfold Library.insert_many
        simp
      rw [this]
      exact insert_many_files_mono _ rest _ (by simpa using hmem)
    · cases r with
      | media rec' =>
        have : Library.insert_many lib (ImportResult.media rec' :: rest)
            = Library.insert_many (Library.insert_many lib [ImportResult.media rec']) rest := by
          unfold Library.insert_many
          simp
        rw [this]
        exact ih _ h'
      | nothing => exact ih lib h'
      | undetected q => exact ih lib h'

theorem find?_insert_many_not_mem (lib : Library) (recs : List ImportResult) (p : Path)
    (h : ∀ rec : MediaRecord, ImportResult.media rec ∈ recs → rec.file ≠ p) :
    (lib.insert_many recs).chapters.find? (fun c => c.file == p)
      = lib.chapters.find? (fun c => c.file == p) := by
  induction recs generalizing lib with
  | nil => rfl
  | cons r rest ih =>
    cases r with
    | media rec =>
      have hstep : Library.insert_many lib (ImportResult.media rec :: rest)
          = Library.insert_many
              ⟨if rec.file ∈ lib.files then lib.files else lib.files ++ [rec.file],
               upsertChapter lib.chapters rec⟩ rest := by
        unfold Library.insert_many
        rfl
      rw [hstep]
      rw [ih _ (fun rec' hm => h rec' (List.mem_cons_of_mem _ hm))]
      exact find?_upsert_ne _ _ _ (h rec (List.mem_cons_self _ _))
    | nothing => exact ih lib (fun rec' hm => h rec' (List.mem_cons_of_mem _ hm))
    | undetected q => exact ih lib (fun rec' hm => h rec' (List.mem_cons_of_mem _ hm))

theorem find?_insert_many_const (lib : Library) (recs : List ImportResult) (p : Path)
    (m : Int)
    (hfind : lib.chapters.find? (fun c => c.file == p) = some ⟨p, m⟩)
    (h : ∀ rec : MediaRecord, ImportResult.media rec ∈ recs → rec.file = p →
      rec = ⟨p, m⟩) :
    (lib.insert_many recs).chapters.find? (fun c => c.file == p) = some ⟨p, m⟩ := by
  induction recs generalizing lib with
  | nil => exact hfind
  | cons r rest ih =>
    cases r with
    | media rec =>
      have hstep : Library.insert_many lib (ImportResult.media rec :: rest)
          = Library.insert_many
              ⟨if rec.file ∈ lib.files then lib.files else lib.files ++ [rec.file],
               upsertChapter lib.chapters rec⟩ rest := by
        unfold Library.insert_many
        rfl
      rw [hstep]
      refine ih _ ?_ (fun rec' hm hf => h rec' (List.mem_cons_of_mem _ hm) hf)
      by_cases hf : rec.file = p
      · have hrec : rec = ⟨p, m⟩ := h rec (List.mem_cons_self _ _) hf
        subst hrec
        simpa using find?_upsert_self lib.chapters ⟨p, m⟩
      · rw [find?_upsert_ne _ _ _ hf]
        exact hfind
    | nothing => exact ih lib hfind (fun rec' hm hf => h rec' (List.mem_cons_of_mem _ hm) hf)
    | undetected q => exact ih lib hfind (fun rec' hm hf => h rec' (List.mem_cons_of_mem _ hm) hf)

theorem find?_insert_many_establish (lib : Library) (recs : List ImportResult)
    (p : Path) (m : Int)
    (hmem : ImportResult.media ⟨p, m⟩ ∈ recs)
    (h : ∀ rec : MediaRecord, ImportResult.media rec ∈ recs → rec.file = p →
      rec = ⟨p, m⟩) :
    (lib.insert_many recs).chapters.find? (fun c => c.file == p) = some ⟨p, m⟩ := by
  induction recs generalizing lib with
  | nil => cases hmem
  | cons r rest ih =>
    rcases List.mem_cons.mp hmem with h' | h'
    · subst h'
      have hstep : Library.insert_many lib (ImportResult.media ⟨p, m⟩ :: rest)
          = Library.insert_many
              ⟨if (⟨p, m⟩ : MediaRecord).file ∈ lib.files then lib.files
                else lib.files ++ [(⟨p, m⟩ : MediaRecord).file],
               upsertChapter lib.chapters ⟨p, m⟩⟩ rest := by
        unfold Library.insert_many
        rfl
      rw [hstep]
      refine find?_insert_many_const _ rest p m ?_
        (fun rec' hm hf => h rec' (List.mem_cons_of_mem _ hm) hf)
      simpa using find?_upsert_self lib.chapters ⟨p, m⟩
    · cases r with
      | media rec =>
        have hstep : Library.insert_many lib (ImportResult.media rec :: rest)
            = Library.insert_many
                ⟨if rec.file ∈ lib.files then lib.files else lib.files ++ [rec.file],
                 upsertChapter lib.chapters rec⟩ rest := by
          unfold Library.insert_many
          rfl
        rw [hstep]
        exact ih _ h' (fun rec' hm hf => h rec' (List.mem_cons_of_mem _ hm) hf)
      | nothing => exact ih lib h' (fun rec' hm hf => h rec' (List.mem_cons_of_mem _ hm) hf)
      | undetected q => exact ih lib h' (fun rec' hm hf => h rec' (List.mem_cons_of_mem _ hm) hf)

theorem find?_insert_many_isSome (lib : Library) (recs : List ImportResult) (p : Path)
    (h : (lib.chapters.find? (fun c => c.file == p)).isSome) :
    ((lib.insert_many recs).chapters.find? (fun c => c.file == p)).isSome := by
  induction recs generalizing lib with
  | nil => exact h
  | cons r rest ih =>
    cases r with
    | media rec =>
      have hstep : Library.insert_many lib (ImportResult.media rec :: rest)
          = Library.insert_many
              ⟨if rec.file ∈ lib.files then lib.files else lib.files ++ [rec.file],
               upsertChapter lib.chapters rec⟩ rest := by
        unfold Library.insert_many
        rfl
      rw [hstep]
      exact ih _ (find?_upsert_isSome _ _ _ h)
    | nothing => exact ih lib h
    | undetected q => exact ih lib h

/-! ### Lemmas about `filterFile`, `filterAll` and `pullFiltered` -/

theorem filterFile_not_imported (imp : List Path) (chs : List Chapter) (env : Env)
    (f : Path) (h : f ∉ imp) : filterFile imp chs env f = .ok (some f) := by
  unfold filterFile
  simp [h]

theorem filterFile_drop (imp : List Path) (chs : List Chapter) (env : Env)
    (f : Path) (c : Chapter) (t : Int) (himp : f ∈ imp)
    (hfind : chs.find? (fun ch => ch.file == f) = some c)
    (hmt : env.mtime f = some t) (hle : ¬ c.modified < t) :
    filterFile imp chs env f = .ok Option.none := by
  unfold filterFile
  simp [himp, hfind, hmt, hle]

theorem filterFile_some (imp : List Path) (chs : List Chapter) (env : Env)
    (f q : Path) (h : filterFile imp chs env f = .ok (some q)) : q = f := by
  unfold filterFile at h
  by_cases himp : f ∈ imp
  · simp only [himp, if_true] at h
    cases hfind : chs.find? (fun ch => ch.file == f) with
    | none => rw [hfind] at h; cases h
    | some c =>
      rw [hfind] at h
      cases hmt : env.mtime f with
      | none => rw [hmt] at h; cases h
      | some t =>
        rw [hmt] at h
        by_cases hlt : c.modified < t
        · simp only [hlt, if_true, Except.ok.injEq, Option.some.injEq] at h
          exact h.symm
        · simp only [hlt, if_false] at h
          cases h
  · simp only [himp, if_false, Except.ok.injEq, Option.some.injEq] at h
    exact h.symm

theorem filterFile_congr (imp : List Path) (chs chs0 : List Chapter) (env : Env)
    (f : Path)
    (h : chs.find? (fun c => c.file == f) = chs0.find? (fun c => c.file == f)) :
    filterFile imp chs env f = filterFile imp chs0 env f := by
  unfold filterFile
  rw [h]

theorem filterFile_is_ok (imp : List Path) (chs : List Chapter) (env : Env) (f : Path)
    (hch : f ∈ imp → (chs.find? (fun c => c.file == f)).isSome)
    (hmt : (env.mtime f).isSome) :
    ∃ o, filterFile imp chs env f = .ok o := by
  unfold filterFile
  by_cases himp : f ∈ imp
  · rcases Option.isSome_iff_exists.mp (hch himp) with ⟨c, hc⟩
    rcases Option.isSome_iff_exists.mp hmt with ⟨t, ht⟩
    by_cases hlt : c.modified < t
    · exact ⟨some f, by simp [himp, hc, ht, hlt]⟩
    · exact ⟨Option.none, by simp [himp, hc, ht, hlt]⟩
  · exact ⟨some f, by simp [himp]⟩

theorem pull_len (imp : List Path) (chs : List Chapter) (env : Env) :
    ∀ (rem : List Path) (n : Nat) (b r : List Path),
      pullFiltered imp chs env n rem = .ok (b, r) →
      b.length + r.length ≤ rem.length := by
  intro rem
  induction rem with
  | nil =>
    intro n b r h
    simp only [pullFiltered, Except.ok.injEq, Prod.mk.injEq] at h
    obtain ⟨rfl, rfl⟩ := h
    simp
  | cons f rest ih =>
    intro n b r h
    cases n with
    | zero =>
      simp only [pullFiltered, Except.ok.injEq, Prod.mk.injEq] at h
      obtain ⟨rfl, rfl⟩ := h
      simp
    | succ n =>
      simp only [pullFiltered] at h
      cases hf : filterFile imp chs env f with
      | error e => rw [hf] at h; cases h
      | ok o =>
        rw [hf] at h
        cases o with
        | none =>
          have := ih (n + 1) b r h
          simp only [List.length_cons]
          omega
        | some p =>
          cases hp : pullFiltered imp chs env n rest with
          | error e => rw [hp] at h; cases h
          | ok br =>
            rw [hp] at h
            obtain ⟨b', r'⟩ := br
            simp only [Except.ok.injEq, Prod.mk.injEq] at h
            obtain ⟨rfl, rfl⟩ := h
            have := ih n b' r' hp
            simp only [List.length_cons]
            omega

theorem pull_split (imp : List Path) (chs : List Chapter) (env : Env) :
    ∀ (rem : List Path) (n : Nat) (b r : List Path),
      pullFiltered imp chs env n rem = .ok (b, r) →
      ∃ consumed, rem = consumed ++ r ∧ ∀ x ∈ b, x ∈ consumed := by
  intro rem
  induction rem with
  | nil =>
    intro n b r h
    simp only [pullFiltered, Except.ok.injEq, Prod.mk.injEq] at h
    obtain ⟨rfl, rfl⟩ := h
    exact ⟨[], by simp⟩
  | cons f rest ih =>
    intro n b r h
    cases n with
    | zero =>
      simp only [pullFiltered, Except.ok.injEq, Prod.mk.injEq] at h
      obtain ⟨rfl, rfl⟩ := h
      exact ⟨[], by simp⟩
    | succ n =>
      simp only [pullFiltered] at h
      cases hf : filterFile imp chs env f with
      | error e => rw [hf] at h; cases h
      | ok o =>
        rw [hf] at h
        cases o with
        | none =>
          rcases ih (n + 1) b r h with ⟨c, hc, hb⟩
          exact ⟨f :: c, by simp [hc], fun x hx => List.mem_cons_of_mem _ (hb x hx)⟩
        | some p =>
          cases hp : pullFiltered imp chs env n rest with
          | error e => rw [hp] at h; cases h
          | ok br =>
            rw [hp] at h
            obtain ⟨b', r'⟩ := br
            simp only [Except.ok.injEq, Prod.mk.injEq] at h
            obtain ⟨rfl, rfl⟩ := h
            rcases ih n b' r' hp with ⟨c, hc, hb⟩
            have hpf : p = f := filterFile_some imp chs env f p hf
            refine ⟨f :: c, by simp [hc], ?_⟩
            intro x hx
            rcases List.mem_cons.mp hx with rfl | hx
            · rw [hpf]; exact List.mem_cons_self _ _
            · exact List.mem_cons_of_mem _ (hb x hx)

theorem pull_agree (imp : List Path) (chs chs0 : List Chapter) (env : Env) :
    ∀ (rem : List Path) (n : Nat),
      (∀ f ∈ rem, chs.find? (fun c => c.file == f) = chs0.find? (fun c => c.file == f)) →
      pullFiltered imp chs env n rem = pullFiltered imp chs0 env n rem := by
  intro rem
  induction rem with
  | nil =>
    intro n _
    simp only [pullFiltered]
  | cons f rest ih =>
    intro n hpt
    cases n with
    | zero => rfl
    | succ n =>
      have hf : filterFile imp chs env f = filterFile imp chs0 env f :=
        filterFile_congr imp chs chs0 env f (hpt f (List.mem_cons_self _ _))
      have hrest : ∀ g ∈ rest, chs.find? (fun c => c.file == g)
          = chs0.find? (fun c => c.file == g) :=
        fun g hg => hpt g (List.mem_cons_of_mem _ hg)
      simp only [pullFiltered, hf]
      cases filterFile imp chs0 env f with
      | error e => rfl
      | ok o =>
        cases o with
        | none => exact ih (n + 1) hrest
        | some p => rw [ih n hrest]

theorem pull_not_mem (imp : List Path) (chs : List Chapter) (env : Env)
    (p : Path) (c : Chapter) (t : Int) (himp : p ∈ imp)
    (hfind : chs.find? (fun ch => ch.file == p) = some c)
    (hmt : env.mtime p = some t) (hle : ¬ c.modified < t) :
    ∀ (rem : List Path) (n : Nat) (b r : List Path),
      pullFiltered imp chs env n rem = .ok (b, r) → p ∉ b := by
  intro rem
  induction rem with
  | nil =>
    intro n b r h
    simp only [pullFiltered, Except.ok.injEq, Prod.mk.injEq] at h
    obtain ⟨rfl, rfl⟩ := h
    simp
  | cons f rest ih =>
    intro n b r h
    cases n with
    | zero =>
      simp only [pullFiltered, Except.ok.injEq, Prod.mk.injEq] at h
      obtain ⟨rfl, rfl⟩ := h
      simp
    | succ n =>
      simp only [pullFiltered] at h
      cases hf : filterFile imp chs env f with
      | error e => rw [hf] at h; cases h
      | ok o =>
        rw [hf] at h
        cases o with
        | none => exact ih (n + 1) b r h
        | some q =>
          cases hp : pullFiltered imp chs env n rest with
          | error e => rw [hp] at h; cases h
          | ok br =>
            rw [hp] at h
            obtain ⟨b', r'⟩ := br
            simp only [Except.ok.injEq, Prod.mk.injEq] at h
            obtain ⟨rfl, rfl⟩ := h
            have hqf : q = f := filterFile_some imp chs env f q hf
            intro hmem
            rcases List.mem_cons.mp hmem with rfl | hmem
            · rw [hqf] at hf
              by_cases hpf : p = f
              · subst hpf
                rw [filterFile_drop imp chs env p c t himp hfind hmt hle] at hf
                cases hf
              · exact hpf hqf
            · exact ih n b' r' hp hmem

theorem pull_is_ok (imp : List Path) (chs : List Chapter) (env : Env)
    (hmt : ∀ f, (env.mtime f).isSome) :
    ∀ (rem : List Path) (n : Nat),
      (∀ f ∈ rem, f ∈ imp → (chs.find? (fun c => c.file == f)).isSome) →
      ∃ b r, pullFiltered imp chs env n rem = .ok (b, r) := by
  intro rem
  induction rem with
  | nil =>
    intro n _
    exact ⟨[], [], by simp only [pullFiltered]⟩
  | cons f rest ih =>
    intro n hch
    cases n with
    | zero => exact ⟨[], f :: rest, rfl⟩
    | succ n =>
      rcases filterFile_is_ok imp chs env f (hch f (List.mem_cons_self _ _)) (hmt f)
        with ⟨o, ho⟩
      have hrest : ∀ g ∈ rest, g ∈ imp → (chs.find? (fun c => c.file == g)).isSome :=
        fun g hg => hch g (List.mem_cons_of_mem _ hg)
      cases o with
      | none =>
        rcases ih (n + 1) hrest with ⟨b, r, hbr⟩
        exact ⟨b, r, by simp only [pullFiltered, ho]; exact hbr⟩
      | some p =>
        rcases ih n hrest with ⟨b, r, hbr⟩
        exact ⟨p :: b, r, by simp only [pullFiltered, ho, hbr]⟩

/-! ### Lemmas about `poolMap` -/

theorem import_file_is_ok (env : Env) (p : Path)
    (hprobe : ∀ e, env.probe p ≠ .raises e) :
    ∃ r, import_file env p = .ok r := by
  unfold import_file
  by_cases hf : env.isfile p
  · cases hpr : env.probe p with
    | ok r => exact ⟨.media r, by simp [hf, hpr]⟩
    | notAnAudioFile => exact ⟨.nothing, by simp [hf, hpr]⟩
    | couldNotBeDiscovered q => exact ⟨.undetected q, by simp [hf, hpr]⟩
    | raises e => exact absurd hpr (hprobe e)
  · exact ⟨.nothing, by simp [hf]⟩

theorem poolMap_is_ok (env : Env) (hprobe : ∀ p e, env.probe p ≠ .raises e) :
    ∀ batch : List Path, ∃ results, poolMap env batch = .ok results := by
  intro batch
  induction batch with
  | nil => exact ⟨[], rfl⟩
  | cons p rest ih =>
    rcases import_file_is_ok env p (hprobe p) with ⟨r, hr⟩
    rcases ih with ⟨rs, hrs⟩
    exact ⟨r :: rs, by simp only [poolMap, hr, hrs]⟩

theorem import_file_media_file (env : Env) (p : Path) (mrec : MediaRecord)
    (hfile : ∀ q r, env.probe q = .ok r → r.file = q)
    (h : import_file env p = .ok (.media mrec)) : mrec.file = p := by
  unfold import_file at h
  by_cases hf : env.isfile p
  · simp only [hf, if_true] at h
    cases hpr : env.probe p with
    | ok r =>
      rw [hpr] at h
      simp only [Except.ok.injEq, ImportResult.media.injEq] at h
      subst h
      exact hfile p _ hpr
    | notAnAudioFile => rw [hpr] at h; cases h
    | couldNotBeDiscovered q => rw [hpr] at h; cases h
    | raises e => rw [hpr] at h; cases h
  · simp only [hf, if_false] at h
    cases h

theorem poolMap_media_mem (env : Env)
    (hfile : ∀ q r, env.probe q = .ok r → r.file = q) :
    ∀ (batch : List Path) (results : List ImportResult) (mrec : MediaRecord),
      poolMap env batch = .ok results → ImportResult.media mrec ∈ results →
      mrec.file ∈ batch := by
  intro batch
  induction batch with
  | nil =>
    intro results mrec h hmem
    simp only [poolMap, Except.ok.injEq] at h
    subst h
    cases hmem
  | cons p rest ih =>
    intro results mrec h hmem
    simp only [poolMap] at h
    cases hr : import_file env p with
    | error e => rw [hr] at h; cases h
    | ok r =>
      rw [hr] at h
      cases hrs : poolMap env rest with
      | error e => rw [hrs] at h; cases h
      | ok rs =>
        rw [hrs] at h
        simp only [Except.ok.injEq] at h
        subst h
        rcases List.mem_cons.mp hmem with h' | h'
        · subst h'
          exact List.mem_cons.mpr (Or.inl (import_file_media_file env p mrec hfile hr))
        · exact List.mem_cons_of_mem _ (ih rs mrec hrs h')

theorem mem_mediaSet (results : List ImportResult) (r : ImportResult)
    (h : r ∈ mediaSet results) : r.isStr = false ∧ r ∈ results := by
  have h' := mem_setOfList _ _ h
  have h'' := List.mem_filter.mp h'
  refine ⟨?_, h''.1⟩
  have := h''.2
  simp only [Bool.not_eq_true'] at this
  simpa using this

/-- One unfolding of the batch loop at positive fuel. -/
theorem importLoop_succ_eq (imp : List Path) (env : Env) (fuel : Nat)
    (st : ImportState) (rem : List Path) :
    importLoop imp env (fuel + 1) st rem
      = match pullFiltered imp st.lib.chapters env 100 rem with
        | .error e => .error e
        | .ok (batch, rem') =>
          match poolMap env batch with
          | .error e => .error e
          | .ok results =>
            if (mediaSet results).length ≠ 0 then
              importLoop imp env fuel
                ⟨st.lib.insert_many (mediaSet results),
                 addUndetected st.undetected (undetectedOf results),
                 st.trace ++ [.batchDone batch.length, .insertCall (mediaSet results)]⟩
                rem'
            else
              .ok ⟨st.lib, addUndetected st.undetected (undetectedOf results),
                   st.trace ++ [.batchDone batch.length]⟩ := rfl

/-- Inversion of a successful loop iteration. -/
theorem importLoop_ok_inv (imp : List Path) (env : Env) (fuel : Nat)
    (st : ImportState) (rem : List Path) (st' : ImportState)
    (h : importLoop imp env (fuel + 1) st rem = .ok st') :
    ∃ batch rem' results,
      pullFiltered imp st.lib.chapters env 100 rem = .ok (batch, rem') ∧
      poolMap env batch = .ok results ∧
      ((mediaSet results ≠ [] ∧
        importLoop imp env fuel
          ⟨st.lib.insert_many (mediaSet results),
           addUndetected st.undetected (undetectedOf results),
           st.trace ++ [.batchDone batch.length, .insertCall (mediaSet results)]⟩
          rem' = .ok st')
       ∨ (mediaSet results = [] ∧
          st' = ⟨st.lib, addUndetected st.undetected (undetectedOf results),
                 st.trace ++ [.batchDone batch.length]⟩)) := by
  rw [importLoop_succ_eq] at h
  split at h
  next e hp => cases h
  next batch rem' hp =>
    split at h
    next e hq => cases h
    next results hq =>
      by_cases hm : (mediaSet results).length ≠ 0
      · rw [if_pos hm] at h
        refine ⟨batch, rem', results, hp, hq, Or.inl ⟨?_, h⟩⟩
        intro hnil
        exact hm (by simp [hnil])
      · rw [if_neg hm] at h
        refine ⟨batch, rem', results, hp, hq, Or.inr ⟨?_, ?_⟩⟩
        · have : (mediaSet results).length = 0 := by omega
          exact List.length_eq_zero.mp this
        · simp only [Except.ok.injEq] at h
          exact h.symm

theorem batchSizes_append (l1 l2 : List Event) :
    batchSizes (l1 ++ l2) = batchSizes l1 ++ batchSizes l2 :=
  List.filterMap_append l1 l2 _

theorem insertArgs_append (l1 l2 : List Event) :
    insertArgs (l1 ++ l2) = insertArgs l1 ++ insertArgs l2 :=
  List.filterMap_append l1 l2 _

/-- The loop only appends batch and insert markers to the trace. -/
theorem importLoop_trace_ext (imp : List Path) (env : Env) :
    ∀ (fuel : Nat) (st : ImportState) (rem : List Path) (st' : ImportState),
      importLoop imp env fuel st rem = .ok st' →
      ∃ ext, st'.trace = st.trace ++ ext ∧
        ∀ e ∈ ext, (∃ n, e = Event.batchDone n) ∨ ∃ rs, e = Event.insertCall rs := by
  intro fuel
  induction fuel with
  | zero =>
    intro st rem st' h
    simp only [importLoop] at h
    exact Except.noConfusion h
  | succ fuel ih =>
    intro st rem st' h
    obtain ⟨batch, rem', results, hp, hq, hcase⟩ := importLoop_ok_inv imp env fuel st rem st' h
    rcases hcase with ⟨hne, hrec⟩ | ⟨hnil, hst⟩
    · rcases ih _ _ _ hrec with ⟨ext, hext, hall⟩
      refine ⟨[Event.batchDone batch.length, Event.insertCall (mediaSet results)] ++ ext, ?_, ?_⟩
      · rw [hext]
        simp
      · intro e he
        rcases List.mem_append.mp he with he | he
        · rcases List.mem_cons.mp he with rfl | he
          · exact Or.inl ⟨_, rfl⟩
          · rcases List.mem_cons.mp he with rfl | he
            · exact Or.inr ⟨_, rfl⟩
            · cases he
        · exact hall e he
    · subst hst
      refine ⟨[Event.batchDone batch.length], by simp, ?_⟩
      intro e he
      rcases List.mem_cons.mp he with rfl | he
      · exact Or.inl ⟨_, rfl⟩
      · cases he

/-- The undetected set stays duplicate-free. -/
theorem importLoop_nodup (imp : List Path) (env : Env) :
    ∀ (fuel : Nat) (st : ImportState) (rem : List Path) (st' : ImportState),
      importLoop imp env fuel st rem = .ok st' →
      st.undetected.Nodup → st'.undetected.Nodup := by
  intro fuel
  induction fuel with
  | zero =>
    intro st rem st' h
    simp only [importLoop] at h
    exact Except.noConfusion h
  | succ fuel ih =>
    intro st rem st' h hnd
    obtain ⟨batch, rem', results, hp, hq, hcase⟩ := importLoop_ok_inv imp env fuel st rem st' h
    rcases hcase with ⟨hne, hrec⟩ | ⟨hnil, hst⟩
    · exact ih _ _ _ hrec (addUndetected_nodup _ _ hnd)
    · subst hst
      exact addUndetected_nodup _ _ hnd

/-- Every insert call the loop adds to the trace has a non-empty argument
containing no string results. -/
theorem importLoop_inserts (imp : List Path) (env : Env) :
    ∀ (fuel : Nat) (st : ImportState) (rem : List Path) (st' : ImportState),
      importLoop imp env fuel st rem = .ok st' →
      ∀ rs, Event.insertCall rs ∈ st'.trace →
        Event.insertCall rs ∈ st.trace ∨ (rs ≠ [] ∧ ∀ r ∈ rs, r.isStr = false) := by
  intro fuel
  induction fuel with
  | zero =>
    intro st rem st' h
    simp only [importLoop] at h
    exact Except.noConfusion h
  | succ fuel ih =>
    intro st rem st' h rs hmem
    obtain ⟨batch, rem', results, hp, hq, hcase⟩ := importLoop_ok_inv imp env fuel st rem st' h
    rcases hcase with ⟨hne, hrec⟩ | ⟨hnil, hst⟩
    · rcases ih _ _ _ hrec rs hmem with hin | hshape
      · simp only [List.mem_append] at hin
        rcases hin with hin | hin
        · exact Or.inl hin
        · rcases List.mem_cons.mp hin with heq | hin
          · cases heq
          · rcases List.mem_cons.mp hin with heq | hin
            · cases heq
              refine Or.inr ⟨hne, ?_⟩
              intro r hr
              exact (mem_mediaSet results r hr).1
            · cases hin
      · exact Or.inr hshape
    · subst hst
      simp only [List.mem_append] at hmem
      rcases hmem with hin | hin
      · exact Or.inl hin
      · rcases List.mem_cons.mp hin with heq | hin
        · cases heq
        · cases hin

theorem batchSizes_pair (n : Nat) (rs : List ImportResult) :
    batchSizes [Event.batchDone n, Event.insertCall rs] = [n] := rfl

theorem insertArgs_pair (n : Nat) (rs : List ImportResult) :
    insertArgs [Event.batchDone n, Event.insertCall rs] = [rs] := rfl

theorem batchSizes_single (n : Nat) : batchSizes [Event.batchDone n] = [n] := rfl

theorem insertArgs_single (n : Nat) : insertArgs [Event.batchDone n] = [] := rfl

/-- Exactly one more batch barrier than insert calls is added by a
completed run of the loop. -/
theorem importLoop_count (imp : List Path) (env : Env) :
    ∀ (fuel : Nat) (st : ImportState) (rem : List Path) (st' : ImportState),
      importLoop imp env fuel st rem = .ok st' →
      (batchSizes st'.trace).length + (insertArgs st.trace).length
        = (batchSizes st.trace).length + (insertArgs st'.trace).length + 1 := by
  intro fuel
  induction fuel with
  | zero =>
    intro st rem st' h
    simp only [importLoop] at h
    exact Except.noConfusion h
  | succ fuel ih =>
    intro st rem st' h
    obtain ⟨batch, rem', results, hp, hq, hcase⟩ := importLoop_ok_inv imp env fuel st rem st' h
    rcases hcase with ⟨hne, hrec⟩ | ⟨hnil, hst⟩
    · have hrec' := ih _ _ _ hrec
      simp only [batchSizes_append, insertArgs_append, batchSizes_pair, insertArgs_pair,
        List.length_append, List.length_cons, List.length_nil] at hrec' ⊢
      omega
    · subst hst
      simp only [batchSizes_append, insertArgs_append, batchSizes_single, insertArgs_single,
        List.length_append, List.length_cons, List.length_nil]
      omega

/-- Taking a step of the loop when the batch contributes a non-empty media
set. -/
theorem importLoop_step_continue (imp : List Path) (env : Env) (fuel : Nat)
    (st : ImportState) (rem batch rem' : List Path) (results : List ImportResult)
    (hp : pullFiltered imp st.lib.chapters env 100 rem = .ok (batch, rem'))
    (hq : poolMap env batch = .ok results)
    (hne : (mediaSet results).length ≠ 0) :
    importLoop imp env (fuel + 1) st rem
      = importLoop imp env fuel
          ⟨st.lib.insert_many (mediaSet results),
           addUndetected st.undetected (undetectedOf results),
           st.trace ++ [.batchDone batch.length, .insertCall (mediaSet results)]⟩
          rem' := by
  rw [importLoop_succ_eq]
  simp only [hp, hq]
  rw [if_pos hne]

/-- Taking the final step of the loop when the batch contributes no media. -/
theorem importLoop_step_break (imp : List Path) (env : Env) (fuel : Nat)
    (st : ImportState) (rem batch rem' : List Path) (results : List ImportResult)
    (hp : pullFiltered imp st.lib.chapters env 100 rem = .ok (batch, rem'))
    (hq : poolMap env batch = .ok results)
    (hnil : mediaSet results = []) :
    importLoop imp env (fuel + 1) st rem
      = .ok ⟨st.lib, addUndetected st.undetected (undetectedOf results),
             st.trace ++ [.batchDone batch.length]⟩ := by
  rw [importLoop_succ_eq]
  simp only [hp, hq]
  rw [if_neg (by simp [hnil])]

/-- One unfolding of the stable-snapshot loop at positive fuel. -/
theorem importLoopStable_succ_eq (imp : List Path) (chs0 : List Chapter) (env : Env)
    (fuel : Nat) (st : ImportState) (rem : List Path) :
    importLoopStable imp chs0 env (fuel + 1) st rem
      = match pullFiltered imp chs0 env 100 rem with
        | .error e => .error e
        | .ok (batch, rem') =>
          match poolMap env batch with
          | .error e => .error e
          | .ok results =>
            if (mediaSet results).length ≠ 0 then
              importLoopStable imp chs0 env fuel
                ⟨st.lib.insert_many (mediaSet results),
                 addUndetected st.undetected (undetectedOf results),
                 st.trace ++ [.batchDone batch.length, .insertCall (mediaSet results)]⟩
                rem'
            else
              .ok ⟨st.lib, addUndetected st.undetected (undetectedOf results),
                   st.trace ++ [.batchDone batch.length]⟩ := rfl

theorem poolMap_nil_of (env : Env) (batch : List Path)
    (results : List ImportResult) (h : poolMap env batch = .ok results)
    (hne : results ≠ []) : batch ≠ [] := by
  intro hb
  subst hb
  simp only [poolMap, Except.ok.injEq] at h
  exact hne h.symm

theorem mediaSet_ne_nil (results : List ImportResult)
    (hne : (mediaSet results).length ≠ 0) : results ≠ [] := by
  intro hr
  subst hr
  exact hne rfl

/-- With candidate-count fuel, a run in which every `mtime` call succeeds,
every indexed path has a chapter entry, and the probe never raises an
undeclared exception completes successfully. -/
theorem importLoop_is_ok (imp : List Path) (env : Env)
    (hprobe : ∀ p e, env.probe p ≠ .raises e)
    (hmt : ∀ f, (env.mtime f).isSome) :
    ∀ (fuel : Nat) (rem : List Path) (st : ImportState),
      rem.length < fuel →
      (∀ f, f ∈ imp → (st.lib.chapters.find? (fun c => c.file == f)).isSome) →
      ∃ st', importLoop imp env fuel st rem = .ok st' := by
  intro fuel
  induction fuel with
  | zero =>
    intro rem st hlt
    omega
  | succ fuel ih =>
    intro rem st hlt hch
    rcases pull_is_ok imp st.lib.chapters env hmt rem 100 (fun f _ => hch f) with ⟨batch, rem', hp⟩
    rcases poolMap_is_ok env hprobe batch with ⟨results, hq⟩
    by_cases hm : (mediaSet results).length ≠ 0
    · have hbatch : batch ≠ [] :=
        poolMap_nil_of env batch results hq (mediaSet_ne_nil results hm)
      have hlen := pull_len imp st.lib.chapters env rem 100 batch rem' hp
      have hblen : 1 ≤ batch.length := by
        cases batch with
        | nil => exact absurd rfl hbatch
        | cons a l => simp
      have hch' : ∀ f, f ∈ imp →
          (((st.lib.insert_many (mediaSet results)).chapters).find?
            (fun c => c.file == f)).isSome :=
        fun f hf => find?_insert_many_isSome st.lib (mediaSet results) f (hch f hf)
      rcases ih rem'
        ⟨st.lib.insert_many (mediaSet results),
         addUndetected st.undetected (undetectedOf results),
         st.trace ++ [.batchDone batch.length, .insertCall (mediaSet results)]⟩
        (by omega) hch' with ⟨st', hst'⟩
      exact ⟨st', by
        rw [importLoop_step_continue imp env fuel st rem batch rem' results hp hq hm]
        exact hst'⟩
    · have hnil : mediaSet results = [] := by
        have : (mediaSet results).length = 0 := by omega
        exact List.length_eq_zero.mp this
      exact ⟨_, importLoop_step_break imp env fuel st rem batch rem' results hp hq hnil⟩

/-- As long as no path occurs twice among the remaining candidates and
probe records carry the probed path, reading the live chapter sequence at
each pull is indistinguishable from reading the snapshot `chs0`. -/
theorem importLoop_agree (imp : List Path) (chs0 : List Chapter) (env : Env)
    (hfile : ∀ q r, env.probe q = .ok r → r.file = q) :
    ∀ (fuel : Nat) (st : ImportState) (rem : List Path),
      rem.Nodup →
      (∀ f ∈ rem, st.lib.chapters.find? (fun c => c.file == f)
        = chs0.find? (fun c => c.file == f)) →
      importLoop imp env fuel st rem = importLoopStable imp chs0 env fuel st rem := by
  intro fuel
  induction fuel with
  | zero =>
    intro st rem _ _
    simp only [importLoop, importLoopStable]
  | succ fuel ih =>
    intro st rem hnd hpt
    have hpull_eq : pullFiltered imp st.lib.chapters env 100 rem
        = pullFiltered imp chs0 env 100 rem :=
      pull_agree imp st.lib.chapters chs0 env rem 100 hpt
    cases hp : pullFiltered imp chs0 env 100 rem with
    | error e =>
      rw [importLoop_succ_eq, importLoopStable_succ_eq, hpull_eq]
      simp only [hp]
    | ok br =>
      obtain ⟨batch, rem'⟩ := br
      have hp' : pullFiltered imp st.lib.chapters env 100 rem = .ok (batch, rem') := by
        rw [hpull_eq]
        exact hp
      cases hq : poolMap env batch with
      | error e =>
        rw [importLoop_succ_eq, importLoopStable_succ_eq, hpull_eq]
        simp only [hp, hq]
      | ok results =>
        by_cases hm : (mediaSet results).length ≠ 0
        · rcases pull_split imp chs0 env rem 100 batch rem' hp with ⟨consumed, hcr, hbc⟩
          have hnd' : rem'.Nodup := by
            rw [hcr] at hnd
            exact (List.nodup_append.mp hnd).2.1
          have hdisj : ∀ x ∈ consumed, x ∉ rem' := by
            rw [hcr] at hnd
            exact fun x hx => (List.nodup_append.mp hnd).2.2 hx
          have hpt' : ∀ f ∈ rem',
              ((st.lib.insert_many (mediaSet results)).chapters).find?
                  (fun c => c.file == f)
                = chs0.find? (fun c => c.file == f) := by
            intro f hf
            have hnotmem : ∀ rec : MediaRecord,
                ImportResult.media rec ∈ mediaSet results → rec.file ≠ f := by
              intro rec hrec
              have hres : ImportResult.media rec ∈ results := (mem_mediaSet results _ hrec).2
              have hin : rec.file ∈ batch := poolMap_media_mem env hfile batch results rec hq hres
              have : rec.file ∈ consumed := hbc _ hin
              intro hrf
              exact hdisj _ this (hrf ▸ hf)
            rw [find?_insert_many_not_mem st.lib (mediaSet results) f hnotmem]
            exact hpt f (by rw [hcr]; exact List.mem_append_right _ hf)
          rw [importLoop_step_continue imp env fuel st rem batch rem' results hp' hq hm]
          have hstable : importLoopStable imp chs0 env (fuel + 1) st rem
              = importLoopStable imp chs0 env fuel
                  ⟨st.lib.insert_many (mediaSet results),
                   addUndetected st.undetected (undetectedOf results),
                   st.trace ++ [.batchDone batch.length, .insertCall (mediaSet results)]⟩
                  rem' := by
            rw [importLoopStable_succ_eq]
            simp only [hp, hq]
            rw [if_pos hm]
          rw [hstable]
          exact ih _ rem' hnd' hpt'
        · have hnil : mediaSet results = [] := by
            have : (mediaSet results).length = 0 := by omega
            exact List.length_eq_zero.mp this
          rw [importLoop_step_break imp env fuel st rem batch rem' results hp' hq hnil]
          rw [importLoopStable_succ_eq]
          simp only [hp, hq]
          rw [if_neg (by simp [hnil])]

theorem import_file_media_probe (env : Env) (q : Path) (mrec : MediaRecord)
    (h : import_file env q = .ok (.media mrec)) : env.probe q = .ok mrec := by
  unfold import_file at h
  by_cases hf : env.isfile q
  · simp only [hf, if_true] at h
    cases hpr : env.probe q with
    | ok r =>
      rw [hpr] at h
      simp only [Except.ok.injEq, ImportResult.media.injEq] at h
      rw [h]
    | notAnAudioFile => rw [hpr] at h; cases h
    | couldNotBeDiscovered q' => rw [hpr] at h; cases h
    | raises e => rw [hpr] at h; cases h
  · simp only [hf, if_false] at h
    cases h

/-- Every media record in a batch's results is the (deterministic) probe
outcome of its own path. -/
theorem poolMap_media_det (env : Env)
    (hfile : ∀ q r, env.probe q = .ok r → r.file = q) :
    ∀ (batch : List Path) (results : List ImportResult) (mrec : MediaRecord),
      poolMap env batch = .ok results → ImportResult.media mrec ∈ results →
      env.probe mrec.file = .ok mrec := by
  intro batch
  induction batch with
  | nil =>
    intro results mrec h hmem
    simp only [poolMap, Except.ok.injEq] at h
    subst h
    cases hmem
  | cons q rest ih =>
    intro results mrec h hmem
    simp only [poolMap] at h
    cases hr : import_file env q with
    | error e => rw [hr] at h; cases h
    | ok r =>
      rw [hr] at h
      cases hrs : poolMap env rest with
      | error e => rw [hrs] at h; cases h
      | ok rs =>
        rw [hrs] at h
        simp only [Except.ok.injEq] at h
        subst h
        rcases List.mem_cons.mp hmem with h' | h'
        · subst h'
          have hpr := import_file_media_probe env q mrec hr
          have := hfile q mrec hpr
          rw [this]
          exact hpr
        · exact ih rs mrec hrs h'

/-- A media record of the batch whose path is `p` is uniquely determined
by the probe: it is `⟨p, m⟩` where `env.mtime p = some m`. -/
theorem mediaSet_const_of (env : Env)
    (hfile : ∀ q r, env.probe q = .ok r → r.file = q)
    (hmod : ∀ q r, env.probe q = .ok r → env.mtime q = some r.modified)
    (batch : List Path) (results : List ImportResult)
    (hq : poolMap env batch = .ok results) (p : Path) (m : Int)
    (hm : env.mtime p = some m) :
    ∀ rec : MediaRecord, ImportResult.media rec ∈ mediaSet results →
      rec.file = p → rec = ⟨p, m⟩ := by
  intro rec hrec hrf
  have hres : ImportResult.media rec ∈ results := (mem_mediaSet results _ hrec).2
  have hpr := poolMap_media_det env hfile batch results rec hq hres
  have hmt := hmod rec.file rec hpr
  rw [hrf] at hmt
  rw [hm] at hmt
  have hmod' : rec.modified = m := by
    simpa using hmt.symm
  cases rec with
  | mk f mo =>
    simp only at hrf hmod'
    rw [hrf, hmod']

/-- Once an imported path's chapter records its (unchanged) modification
time, the rest of a run preserves both the membership and the entry. -/
theorem importLoop_preserves_chapter (imp : List Path) (env : Env)
    (hfile : ∀ q r, env.probe q = .ok r → r.file = q)
    (hmod : ∀ q r, env.probe q = .ok r → env.mtime q = some r.modified)
    (p : Path) (m : Int) (hm : env.mtime p = some m) :
    ∀ (fuel : Nat) (st : ImportState) (rem : List Path) (st' : ImportState),
      importLoop imp env fuel st rem = .ok st' →
      p ∈ st.lib.files →
      st.lib.chapters.find? (fun c => c.file == p) = some ⟨p, m⟩ →
      p ∈ st'.lib.files ∧
        st'.lib.chapters.find? (fun c => c.file == p) = some ⟨p, m⟩ := by
  intro fuel
  induction fuel with
  | zero =>
    intro st rem st' h
    simp only [importLoop] at h
    exact Except.noConfusion h
  | succ fuel ih =>
    intro st rem st' h hpf hpc
    obtain ⟨batch, rem', results, hp, hq, hcase⟩ := importLoop_ok_inv imp env fuel st rem st' h
    rcases hcase with ⟨hne, hrec⟩ | ⟨hnil, hst⟩
    · refine ih _ _ _ hrec ?_ ?_
      · exact insert_many_files_mono st.lib (mediaSet results) p hpf
      · exact find?_insert_many_const st.lib (mediaSet results) p m hpc
          (mediaSet_const_of env hfile hmod batch results hq p m hm)
    · subst hst
      exact ⟨hpf, hpc⟩

/-- Every media record inserted during a run ends the run imported, with a
chapter entry recording its own (current) modification time. -/
theorem importLoop_insert_implies (imp : List Path) (env : Env)
    (hfile : ∀ q r, env.probe q = .ok r → r.file = q)
    (hmod : ∀ q r, env.probe q = .ok r → env.mtime q = some r.modified) :
    ∀ (fuel : Nat) (st : ImportState) (rem : List Path) (st' : ImportState),
      importLoop imp env fuel st rem = .ok st' →
      ∀ rs (mrec : MediaRecord),
        Event.insertCall rs ∈ st'.trace → ImportResult.media mrec ∈ rs →
        Event.insertCall rs ∈ st.trace ∨
          (mrec.file ∈ st'.lib.files ∧
           st'.lib.chapters.find? (fun c => c.file == mrec.file)
             = some ⟨mrec.file, mrec.modified⟩ ∧
           env.mtime mrec.file = some mrec.modified) := by
  intro fuel
  induction fuel with
  | zero =>
    intro st rem st' h
    simp only [importLoop] at h
    exact Except.noConfusion h
  | succ fuel ih =>
    intro st rem st' h rs mrec hmemtr hmemrs
    obtain ⟨batch, rem', results, hp, hq, hcase⟩ := importLoop_ok_inv imp env fuel st rem st' h
    rcases hcase with ⟨hne, hrec⟩ | ⟨hnil, hst⟩
    · rcases ih _ _ _ hrec rs mrec hmemtr hmemrs with hin | hP
      · simp only [List.mem_append] at hin
        rcases hin with hin | hin
        · exact Or.inl hin
        · rcases List.mem_cons.mp hin with heq | hin
          · cases heq
          · rcases List.mem_cons.mp hin with heq | hin
            · cases heq
              have hprobe := poolMap_media_det env hfile batch results mrec hq
                (mem_mediaSet results _ hmemrs).2
              have hmt : env.mtime mrec.file = some mrec.modified :=
                hmod mrec.file mrec hprobe
              have hfiles : mrec.file ∈ (st.lib.insert_many (mediaSet results)).files :=
                insert_many_files_of_mem st.lib (mediaSet results) mrec hmemrs
              have hconst := mediaSet_const_of env hfile hmod batch results hq
                mrec.file mrec.modified hmt
              have hmemrs' : ImportResult.media ⟨mrec.file, mrec.modified⟩ ∈ mediaSet results := by
                cases mrec with
                | mk f mo => exact hmemrs
              have hch : ((st.lib.insert_many (mediaSet results)).chapters).find?
                  (fun c => c.file == mrec.file) = some ⟨mrec.file, mrec.modified⟩ :=
                find?_insert_many_establish st.lib (mediaSet results)
                  mrec.file mrec.modified hmemrs' hconst
              have hpost := importLoop_preserves_chapter imp env hfile hmod
                mrec.file mrec.modified hmt fuel _ rem' st' hrec hfiles hch
              exact Or.inr ⟨hpost.1, hpost.2, hmt⟩
            · cases hin
      · exact Or.inr hP
    · subst hst
      simp only [List.mem_append] at hmemtr
      rcases hmemtr with hin | hin
      · exact Or.inl hin
      · rcases List.mem_cons.mp hin with heq | hin
        · cases heq
        · cases hin

/-- A path that is in the snapshot and whose chapter timestamp is at least
its current modification time is never pulled into a batch, so the run
inserts no record for it and leaves its chapter alone. -/
theorem importLoop_no_insert_dropped (imp : List Path) (env : Env)
    (hfile : ∀ q r, env.probe q = .ok r → r.file = q)
    (p : Path) (c : Chapter) (m : Int)
    (himp : p ∈ imp) (hm : env.mtime p = some m) (hle : ¬ c.modified < m) :
    ∀ (fuel : Nat) (st : ImportState) (rem : List Path) (st' : ImportState),
      importLoop imp env fuel st rem = .ok st' →
      st.lib.chapters.find? (fun ch => ch.file == p) = some c →
      ∀ rs, Event.insertCall rs ∈ st'.trace →
        Event.insertCall rs ∈ st.trace ∨ ∀ m', ImportResult.media ⟨p, m'⟩ ∉ rs := by
  intro fuel
  induction fuel with
  | zero =>
    intro st rem st' h
    simp only [importLoop] at h
    exact Except.noConfusion h
  | succ fuel ih =>
    intro st rem st' h hpc rs hmemtr
    obtain ⟨batch, rem', results, hp, hq, hcase⟩ := importLoop_ok_inv imp env fuel st rem st' h
    have hpb : p ∉ batch :=
      pull_not_mem imp st.lib.chapters env p c m himp hpc hm hle rem 100 batch rem' hp
    have hnorec : ∀ rec : MediaRecord,
        ImportResult.media rec ∈ mediaSet results → rec.file ≠ p := by
      intro rec hrec hrf
      have hres : ImportResult.media rec ∈ results := (mem_mediaSet results _ hrec).2
      have := poolMap_media_mem env hfile batch results rec hq hres
      rw [hrf] at this
      exact hpb this
    rcases hcase with ⟨hne, hrec⟩ | ⟨hnil, hst⟩
    · have hpc' : ((st.lib.insert_many (mediaSet results)).chapters).find?
          (fun ch => ch.file == p) = some c := by
        rw [find?_insert_many_not_mem st.lib (mediaSet results) p hnorec]
        exact hpc
      rcases ih _ _ _ hrec hpc' rs hmemtr with hin | hnope
      · simp only [List.mem_append] at hin
        rcases hin with hin | hin
        · exact Or.inl hin
        · rcases List.mem_cons.mp hin with heq | hin
          · cases heq
          · rcases List.mem_cons.mp hin with heq | hin
            · cases heq
              refine Or.inr ?_
              intro m' hmem
              exact hnorec ⟨p, m'⟩ hmem rfl
            · cases hin
      · exact Or.inr hnope
    · subst hst
      simp only [List.mem_append] at hmemtr
      rcases hmemtr with hin | hin
      · exact Or.inl hin
      · rcases List.mem_cons.mp hin with heq | hin
        · cases heq
        · cases hin

theorem filterFile_yield_inv (imp : List Path) (chs : List Chapter) (env : Env)
    (f : Path) (h : filterFile imp chs env f = .ok (some f)) :
    f ∉ imp ∨ ∃ c, chs.find? (fun ch => ch.file == f) = some c ∧
      ∃ t, env.mtime f = some t ∧ c.modified < t := by
  unfold filterFile at h
  by_cases himp : f ∈ imp
  · rw [if_pos himp] at h
    split at h
    · exact absurd h (by simp)
    next c hc =>
      split at h
      · exact absurd h (by simp)
      next t ht =>
        split at h
        next hlt => exact Or.inr ⟨c, hc, t, ht, hlt⟩
        next hlt => exact absurd h (by simp)
  · exact Or.inl himp

theorem filterFile_drop_inv (imp : List Path) (chs : List Chapter) (env : Env)
    (f : Path) (h : filterFile imp chs env f = .ok Option.none) :
    f ∈ imp ∧ ∃ c, chs.find? (fun ch => ch.file == f) = some c ∧
      ∃ t, env.mtime f = some t ∧ ¬ c.modified < t := by
  unfold filterFile at h
  by_cases himp : f ∈ imp
  · rw [if_pos himp] at h
    split at h
    · exact absurd h (by simp)
    next c hc =>
      split at h
      · exact absurd h (by simp)
      next t ht =>
        split at h
        next hlt => exact absurd h (by simp)
        next hlt => exact ⟨himp, c, hc, t, ht, hlt⟩
  · rw [if_neg himp] at h
    exact absurd h (by simp)

/-- Membership characterization of the standalone change filter. -/
theorem filterAll_mem (imp : List Path) (chs : List Chapter) (env : Env) :
    ∀ (files out : List Path), filterAll imp chs env files = .ok out →
      ∀ f, f ∈ out ↔ f ∈ files ∧
        (f ∉ imp ∨ ∃ c, chs.find? (fun ch => ch.file == f) = some c ∧
          ∃ t, env.mtime f = some t ∧ c.modified < t) := by
  intro files
  induction files with
  | nil =>
    intro out h f
    simp only [filterAll, Except.ok.injEq] at h
    subst h
    simp
  | cons g rest ih =>
    intro out h f
    simp only [filterAll] at h
    cases hg : filterFile imp chs env g with
    | error e => rw [hg] at h; cases h
    | ok o =>
      rw [hg] at h
      cases o with
      | none =>
        have hiff := ih out h f
        rw [hiff]
        constructor
        · rintro ⟨hf, hP⟩
          exact ⟨List.mem_cons_of_mem _ hf, hP⟩
        · rintro ⟨hf, hP⟩
          rcases List.mem_cons.mp hf with rfl | hf
          · exfalso
            obtain ⟨himp, c, hc, t, ht, hnlt⟩ := filterFile_drop_inv imp chs env f hg
            rcases hP with hP | ⟨c', hc', t', ht', hlt'⟩
            · exact hP himp
            · rw [hc] at hc'
              rw [ht] at ht'
              simp only [Option.some.injEq] at hc' ht'
              subst hc'
              subst ht'
              exact hnlt hlt'
          · exact ⟨hf, hP⟩
      | some q =>
        have hq : q = g := filterFile_some imp chs env g q hg
        subst hq
        cases hrest : filterAll imp chs env rest with
        | error e => rw [hrest] at h; cases h
        | ok out' =>
          rw [hrest] at h
          simp only [Except.ok.injEq] at h
          subst h
          have hiff := ih out' hrest f
          constructor
          · intro hf
            rcases List.mem_cons.mp hf with rfl | hf
            · exact ⟨List.mem_cons_self _ _, filterFile_yield_inv imp chs env f hg⟩
            · rcases hiff.mp hf with ⟨hf', hP⟩
              exact ⟨List.mem_cons_of_mem _ hf', hP⟩
          · rintro ⟨hf, hP⟩
            rcases List.mem_cons.mp hf with rfl | hf
            · exact List.mem_cons_self _ _
            · exact List.mem_cons_of_mem _ (hiff.mpr ⟨hf, hP⟩)

/-! ### Scan-level lemmas -/

theorem scan_eq_of_ok (env : Env) (lib : Library) (st : ImportState)
    (h : execute_import env lib
        (walk_paths_to_scan env (get_configured_storage_paths env)) = .ok st) :
    scan env lib
      = .ok (Event.scanStatus .STARTED ::
              (st.trace ++ [Event.scanStatus .SUCCESS] ++
                (if 0 < st.undetected.length then [Event.importFailed st.undetected]
                 else [])),
             st) := by
  unfold scan
  rw [h]

theorem scan_ok_inv (env : Env) (lib : Library) (tr : List Event) (st : ImportState)
    (h : scan env lib = .ok (tr, st)) :
    execute_import env lib
        (walk_paths_to_scan env (get_configured_storage_paths env)) = .ok st ∧
    tr = Event.scanStatus .STARTED ::
          (st.trace ++ [Event.scanStatus .SUCCESS] ++
            (if 0 < st.undetected.length then [Event.importFailed st.undetected]
             else [])) := by
  unfold scan at h
  split at h
  next e hex => cases h
  next st0 hex =>
    simp only [Except.ok.injEq, Prod.mk.injEq] at h
    obtain ⟨h1, h2⟩ := h
    subst h2
    exact ⟨hex, h1.symm⟩

set_option maxRecDepth 40000

/-! ### The claims -/

/-- C1, counterexample: the claim says the batch loop terminates exactly
when the pulled slice is empty, and that every non-empty slice is fully
processed with the loop continuing afterwards.  On 101 candidates of
which the first 100 probe as undetected strings and the 101st is a valid
media file, the loop terminates right after the first (non-empty,
100-element) slice: the trace records a single slice of size 100, no
insert ever happens, and no empty slice is ever pulled — so the loop
terminated on a non-empty slice, and the valid file was never processed. -/
theorem c1_counterexample :
    (execute_import envC1 lib0 (List.range 101)).toOption.map
        (fun st => (batchSizes st.trace, insertArgs st.trace))
      = some ([100], []) := by decide

/-- C1, amended: the batch loop terminates exactly when the slice's probe
results contain no non-string values; an empty slice always terminates it
(first conjunct, for any state), and when every candidate yields a valid
MediaRecord the loop terminates exactly on the empty slice: 250 such
candidates give slices of sizes 100, 100, 50 and a terminating empty
slice with inserts of sizes 100, 100, 50; 100 such candidates give one
full slice and the terminating empty slice with a single insert of size
100 and no spurious second batch. -/
theorem c1_amended (imp : List Path) (env : Env) (fuel : Nat) (st : ImportState) :
    importLoop imp env (fuel + 1) st []
        = .ok ⟨st.lib, st.undetected, st.trace ++ [Event.batchDone 0]⟩
      ∧ (execute_import envAll lib0 (List.range 250)).toOption.map
          (fun st' => (batchSizes st'.trace, (insertArgs st'.trace).map List.length))
          = some ([100, 100, 50, 0], [100, 100, 50])
      ∧ (execute_import envAll lib0 (List.range 100)).toOption.map
          (fun st' => (batchSizes st'.trace, (insertArgs st'.trace).map List.length))
          = some ([100, 0], [100]) := by
  refine ⟨?_, by decide, by decide⟩
  have hp : pullFiltered imp st.lib.chapters env 100 [] = .ok ([], []) := by
    simp only [pullFiltered]
  have hq : poolMap env [] = .ok [] := rfl
  exact importLoop_step_break imp env fuel st [] [] [] [] hp hq rfl

/-- C2, counterexample: the claim says probe results that are `nothing`
are discarded and never passed to `insert_many`, and that `insert_many` is
called if and only if the batch produced at least one MediaRecord.  On a
single candidate that is not a regular file, the batch's only result is
Python `None`: the trace shows `insert_many` being called with `[nothing]`
although the batch produced zero MediaRecords, because the code only
filters out strings (`None` is not a `str`) and tests emptiness of that
set. -/
theorem c2_counterexample :
    (execute_import envC2 lib0 [0]).toOption.map (fun st => st.trace)
      = some [Event.batchDone 1, Event.insertCall [ImportResult.nothing],
              Event.batchDone 0] := by decide

/-- C2, amended: the undetected set accumulates string results and stays
deduplicated (`Nodup`); every `insert_many` call receives the batch's
non-empty set of non-string results — which never contains a string, but
may contain `None` markers alongside MediaRecords — and `insert_many` is
called for every slice except exactly the terminating one (one more batch
barrier than insert calls). -/
theorem c2_amended (env : Env) (lib : Library) (cands : List Path)
    (st : ImportState) (rs : List ImportResult) (r : ImportResult)
    (h : execute_import env lib cands = .ok st)
    (hrs : Event.insertCall rs ∈ st.trace) (hr : r ∈ rs) :
    st.undetected.Nodup ∧ rs ≠ [] ∧ r.isStr = false ∧
      (batchSizes st.trace).length = (insertArgs st.trace).length + 1 := by
  unfold execute_import at h
  have hshape := importLoop_inserts lib.files env _ _ _ _ h rs hrs
  have hcount := importLoop_count lib.files env _ _ _ _ h
  refine ⟨importLoop_nodup lib.files env _ _ _ _ h List.nodup_nil, ?_, ?_, ?_⟩
  · rcases hshape with hin | ⟨hne, _⟩
    · cases hin
    · exact hne
  · rcases hshape with hin | ⟨_, hall⟩
    · cases hin
    · exact hall r hr
  · simpa [batchSizes, insertArgs] using hcount

/-- C2, witness: instantiation of the amended claim on a single valid
media file `7`. -/
theorem c2_witness :
    (ImportState.mk ⟨[7], [⟨7, 0⟩]⟩ []
        [Event.batchDone 1, Event.insertCall [ImportResult.media ⟨7, 0⟩],
         Event.batchDone 0]).undetected.Nodup
    ∧ ([ImportResult.media ⟨7, 0⟩] : List ImportResult) ≠ []
    ∧ (ImportResult.media ⟨7, 0⟩).isStr = false
    ∧ (batchSizes (ImportState.mk ⟨[7], [⟨7, 0⟩]⟩ []
        [Event.batchDone 1, Event.insertCall [ImportResult.media ⟨7, 0⟩],
         Event.batchDone 0]).trace).length
      = (insertArgs (ImportState.mk ⟨[7], [⟨7, 0⟩]⟩ []
        [Event.batchDone 1, Event.insertCall [ImportResult.media ⟨7, 0⟩],
         Event.batchDone 0]).trace).length + 1 :=
  c2_amended envAll lib0 [7]
    (ImportState.mk ⟨[7], [⟨7, 0⟩]⟩ []
      [Event.batchDone 1, Event.insertCall [ImportResult.media ⟨7, 0⟩],
       Event.batchDone 0])
    [ImportResult.media ⟨7, 0⟩] (ImportResult.media ⟨7, 0⟩)
    (by decide) (by decide) (by decide)

/-- C3, counterexample: the claim says no exception originating from
probing, filtering or walking escapes `scan()`, explicitly including files
that vanish between discovery and probing.  With one configured storage
location containing the single indexed file `5` whose
`os.path.getmtime` call fails (the file vanished after discovery, before
the filter's timestamp check), the exception propagates out of `scan`
uncaught: the filter has no handler around `getmtime`. -/
theorem c3_counterexample :
    scan envC3 ⟨[5], [⟨5, 0⟩]⟩ = .error (.mtimeError 5) := by decide

/-- C3, amended: faults arising inside probing are absorbed (a missing
file yields `None`; the two declared probe exception classes are caught),
so whenever the probe raises no undeclared exception, every `getmtime`
call succeeds, and every indexed file has a chapter record, `scan()`
completes without an escaping exception; but a fault during filtering — a
vanished file at the `getmtime` call or a missing chapter record — does
propagate (see the counterexample). -/
theorem c3_amended (env : Env) (lib : Library)
    (hprobe : ∀ p e, env.probe p ≠ .raises e)
    (hmt : ∀ f, (env.mtime f).isSome)
    (hch : ∀ f, f ∈ lib.files → (lib.chapters.find? (fun c => c.file == f)).isSome) :
    (scan env lib).toOption.isSome = true := by
  rcases importLoop_is_ok lib.files env hprobe hmt
      ((walk_paths_to_scan env (get_configured_storage_paths env)).length + 1)
      (walk_paths_to_scan env (get_configured_storage_paths env))
      ⟨lib, [], []⟩ (by omega) hch with ⟨st', hok⟩
  rw [scan_eq_of_ok env lib st' hok]
  rfl

/-- C3, witness: instantiation of the amended claim on the empty
configuration. -/
theorem c3_witness : (scan envAll lib0).toOption.isSome = true :=
  c3_amended envAll lib0 (fun p e h => by cases h) (fun f => rfl)
    (fun f hf => absurd hf (List.not_mem_nil f))

/-- C4: the claim (and §4.3 of the spec) requires the ChangeFilter to
treat a path that is in the ImportedFileIndex but has no locatable chapter
record as "not matched, skip", continuing with the remaining paths.  The
code instead evaluates `next()` on an empty match, raising `StopIteration`
(a `RuntimeError` under PEP 479) that aborts the whole filter: with index
`{0}` and no chapters, filtering `[0, 1]` fails wholesale instead of
skipping `0` and yielding `1`. -/
theorem c4_missing_chapter_aborts :
    filter_unchanged_files envAll ⟨[0], []⟩ [0, 1]
      = .error (.missingChapter 0) := by decide

/-- C5: for every discovered path, the ChangeFilter yields it iff it is
either not in the ImportedFileIndex, or its first matching chapter record
exists and its current on-disk modification time (truncated to whole
seconds) strictly exceeds the stored timestamp; equal or earlier means it
is dropped. -/
theorem c5_change_detection (env : Env) (lib : Library) (files out : List Path)
    (f : Path) (h : filter_unchanged_files env lib files = .ok out) :
    f ∈ out ↔ f ∈ files ∧
      (f ∉ lib.files ∨ ∃ c, lib.chapters.find? (fun ch => ch.file == f) = some c ∧
        ∃ t, env.mtime f = some t ∧ c.modified < t) :=
  filterAll_mem lib.files lib.chapters env files out h f

/-- C5, witness: path `5` (stored 1 < current 3) is re-yielded while path
`6` (stored 3 = current 3) is dropped and `7` (new) is yielded. -/
theorem c5_witness :
    ((6 : Path) ∈ ([5, 7] : List Path)) ↔ ((6 : Path) ∈ ([5, 6, 7] : List Path) ∧
      ((6 : Path) ∉ libW5.files ∨
        ∃ c, libW5.chapters.find? (fun ch => ch.file == 6) = some c ∧
          ∃ t, envW5.mtime 6 = some t ∧ c.modified < t)) :=
  c5_change_detection envW5 libW5 [5, 6, 7] [5, 7] 6 (by decide)

/-- C6: a completed `scan()` emits `(scan, STARTED)` first, before any
batch barrier; everything between it and the single `(scan, SUCCESS)`
event is batch or insert activity of the coordinator; `SUCCESS` is emitted
exactly once; and `(import-failed, set)` follows `SUCCESS` exactly when the
accumulated undetected set is non-empty. -/
theorem c6_event_order (env : Env) (lib : Library) (tr : List Event)
    (st : ImportState) (e : Event)
    (h : scan env lib = .ok (tr, st)) (he : e ∈ st.trace) :
    tr = Event.scanStatus .STARTED ::
          (st.trace ++ [Event.scanStatus .SUCCESS] ++
            (if 0 < st.undetected.length then [Event.importFailed st.undetected]
             else []))
    ∧ ((∃ n, e = Event.batchDone n) ∨ ∃ rs, e = Event.insertCall rs)
    ∧ tr.count (Event.scanStatus .SUCCESS) = 1 := by
  obtain ⟨hex, htr⟩ := scan_ok_inv env lib tr st h
  unfold execute_import at hex
  obtain ⟨ext, hext, hall⟩ := importLoop_trace_ext lib.files env _ _ _ _ hex
  have hst : st.trace = ext := by simpa using hext
  refine ⟨htr, hall e (hst ▸ he), ?_⟩
  have hnotmem : Event.scanStatus .SUCCESS ∉ st.trace := by
    intro hmem
    rcases hall _ (hst ▸ hmem) with ⟨n, hn⟩ | ⟨rs, hrs⟩
    · cases hn
    · cases hrs
  have hc0 : st.trace.count (Event.scanStatus .SUCCESS) = 0 :=
    List.count_eq_zero.mpr hnotmem
  have hite : (if 0 < st.undetected.length then [Event.importFailed st.undetected]
      else []).count (Event.scanStatus ScanStatus.SUCCESS) = 0 := by
    by_cases hu : 0 < st.undetected.length
    · rw [if_pos hu]
      rfl
    · rw [if_neg hu]
      rfl
  rw [htr, List.count_cons_of_ne (by decide), List.count_append, List.count_append,
    hc0, hite]
  decide

/-- C6, witness: the empty scan emits `STARTED`, one (empty) batch
barrier, then `SUCCESS` and no `import-failed` event. -/
theorem c6_witness :
    ([Event.scanStatus .STARTED, Event.batchDone 0, Event.scanStatus .SUCCESS]
        : List Event)
      = Event.scanStatus .STARTED ::
          ((ImportState.mk lib0 [] [Event.batchDone 0]).trace
            ++ [Event.scanStatus .SUCCESS]
            ++ (if 0 < (ImportState.mk lib0 [] [Event.batchDone 0]).undetected.length
                then [Event.importFailed (ImportState.mk lib0 []
                        [Event.batchDone 0]).undetected]
                else []))
    ∧ ((∃ n, Event.batchDone 0 = Event.batchDone n)
        ∨ ∃ rs, Event.batchDone 0 = Event.insertCall rs)
    ∧ ([Event.scanStatus .STARTED, Event.batchDone 0, Event.scanStatus .SUCCESS]
        : List Event).count (Event.scanStatus .SUCCESS) = 1 :=
  c6_event_order envAll lib0
    [Event.scanStatus .STARTED, Event.batchDone 0, Event.scanStatus .SUCCESS]
    (ImportState.mk lib0 [] [Event.batchDone 0]) (Event.batchDone 0)
    (by decide) (by decide)

theorem online_kept (env : Env) (s : Storage) :
    ((match env.is_storage_online s with
       | OnlineStatus.online => true
       | OnlineStatus.offline => false
       | OnlineStatus.storageNotFound => true) = true)
      ↔ (env.is_storage_online s = .online
          ∨ env.is_storage_online s = .storageNotFound) := by
  cases h : env.is_storage_online s <;> simp

/-- C7: the scan roots are exactly the existing paths among the
non-external configured locations together with the external locations
whose online query answers true or fails with `StorageNotFound`; an
offline or vanished location is simply excluded (the resolver is total —
it returns a plain list, raising nothing). -/
theorem c7_path_resolution (env : Env) (p : Path) :
    p ∈ get_configured_storage_paths env ↔
      env.pathExists p = true ∧
        ((∃ s ∈ env.storage_locations, s.external = false ∧ s.path = p) ∨
         (∃ s ∈ env.external_storage_locations,
            (env.is_storage_online s = .online
              ∨ env.is_storage_online s = .storageNotFound) ∧ s.path = p)) := by
  unfold get_configured_storage_paths
  simp only [List.mem_filter, List.mem_append, List.mem_map, Bool.not_eq_true',
    online_kept]
  constructor
  · rintro ⟨hmem, hex⟩
    refine ⟨hex, ?_⟩
    rcases hmem with ⟨s, ⟨hs, hq⟩, hp⟩ | ⟨s, ⟨hs, hq⟩, hp⟩
    · exact Or.inl ⟨s, hs, hq, hp⟩
    · exact Or.inr ⟨s, hs, hq, hp⟩
  · rintro ⟨hex, hor⟩
    refine ⟨?_, hex⟩
    rcases hor with ⟨s, hs, hq, hp⟩ | ⟨s, hs, hq, hp⟩
    · exact Or.inl ⟨s, ⟨hs, hq⟩, hp⟩
    · exact Or.inr ⟨s, ⟨hs, hq⟩, hp⟩

/-- C8, counterexample: the claim says neither the membership test nor the
stored-timestamp lookup of the ChangeFilter reflects inserts made by
`insert_many` during the same scan.  With path `200` imported at stored
time 5, on-disk time 10, and occurring before and after 100 new files, the
real pipeline pulls slices of sizes 100, 1 (the second occurrence of `200`
is dropped because batch 1's insert updated its chapter to 10), while the
stable-snapshot variant pulls 100, 2 — the lookup does reflect the
in-scan insert. -/
theorem c8_counterexample :
    ((execute_import envC8 libC8 candsC8).toOption.map
        (fun st => batchSizes st.trace),
     (execute_import_stable envC8 libC8 candsC8).toOption.map
        (fun st => batchSizes st.trace))
      = (some [100, 1, 0], some [100, 2, 0]) := by decide

/-- C8, amended: the membership test is genuinely snapshot-stable (it uses
the `files` value captured at the generator's first pull, before any
insert), and the live chapter lookups are observable only when a path
occurs more than once among the candidates: for duplicate-free candidates
(and probe records carrying the probed path) the run is identical to the
run against a fully stable snapshot. -/
theorem c8_amended (env : Env) (lib : Library) (cands : List Path)
    (hnd : cands.Nodup)
    (hfile : ∀ q r, env.probe q = .ok r → r.file = q) :
    execute_import env lib cands = execute_import_stable env lib cands := by
  unfold execute_import execute_import_stable
  exact importLoop_agree lib.files lib.chapters env hfile (cands.length + 1)
    ⟨lib, [], []⟩ cands hnd (fun f _ => rfl)

/-- C8, witness: instantiation of the amended claim on two distinct valid
files. -/
theorem c8_witness :
    execute_import envAll lib0 [1, 2] = execute_import_stable envAll lib0 [1, 2] :=
  c8_amended envAll lib0 [1, 2] (by decide) (fun q r h => by cases h; rfl)

/-- C9, counterexample: the claim says a second scan over an unchanged
filesystem imports zero new files.  In `envC9` (stable filesystem: `501`
is a directory entry that is not a regular file, e.g. a broken symlink),
run 1 imports only `500` and then stops early — its second slice consists
of 100 undetected files, so the loop breaks before reaching `502`.  Run 2,
over the identical filesystem, drops the already-imported `500`, which
shifts the slice boundaries: its first slice contains the `None` result of
`501` (so `insert_many` is called and the loop continues), and its second
slice reaches `502` and imports it — one new file on the second run. -/
theorem c9_counterexample :
    (execute_import envC9 lib0 candsC9).toOption.map (fun st => st.lib) = some libC9
    ∧ (execute_import envC9 libC9 candsC9).toOption.map (fun st => st.lib.files)
        = some [500, 502] :=
  ⟨by decide, by decide⟩

/-- C9, amended: no previously imported file is ever re-imported: when
probe records carry their own path and its truncated modification time,
any record inserted during the first run leaves the file imported with a
chapter equal to its current modification time, so the second run's
ChangeFilter drops the path in every batch and no insert of the second run
contains a record for it.  (The second run may still import files the
first run's early termination skipped — see the counterexample.) -/
theorem c9_amended (env : Env) (lib : Library) (cands : List Path)
    (st1 st2 : ImportState) (p : Path) (m m' : Int)
    (recs recs2 : List ImportResult)
    (hfile : ∀ q r, env.probe q = .ok r → r.file = q)
    (hmod : ∀ q r, env.probe q = .ok r → env.mtime q = some r.modified)
    (h1 : execute_import env lib cands = .ok st1)
    (h2 : execute_import env st1.lib cands = .ok st2)
    (hic1 : Event.insertCall recs ∈ st1.trace)
    (hm1 : ImportResult.media ⟨p, m⟩ ∈ recs)
    (hic2 : Event.insertCall recs2 ∈ st2.trace) :
    ImportResult.media ⟨p, m'⟩ ∉ recs2 := by
  unfold execute_import at h1 h2
  have hA := importLoop_insert_implies lib.files env hfile hmod _ _ _ _ h1
    recs ⟨p, m⟩ hic1 hm1
  rcases hA with hin | ⟨hpf, hpc, hmt⟩
  · cases hin
  have hB := importLoop_no_insert_dropped st1.lib.files env hfile p ⟨p, m⟩ m
    hpf hmt (by simp) _ _ _ _ h2 hpc recs2 hic2
  rcases hB with hin | hno
  · cases hin
  · exact hno m'

/-- C9, witness: with `3` a valid media file and `4` a non-regular
directory entry, run 1 inserts `3`'s record; run 2's only insert is the
spurious `[None]` call for `4`, and it contains no record for `3`. -/
theorem c9_witness :
    ImportResult.media ⟨3, 0⟩ ∉ ([ImportResult.nothing] : List ImportResult) :=
  c9_amended envC9W lib0 [3, 4]
    (ImportState.mk ⟨[3], [⟨3, 0⟩]⟩ []
      [Event.batchDone 2,
       Event.insertCall [ImportResult.media ⟨3, 0⟩, ImportResult.nothing],
       Event.batchDone 0])
    (ImportState.mk ⟨[3], [⟨3, 0⟩]⟩ []
      [Event.batchDone 1, Event.insertCall [ImportResult.nothing],
       Event.batchDone 0])
    3 0 0
    [ImportResult.media ⟨3, 0⟩, ImportResult.nothing] [ImportResult.nothing]
    (fun q r h => by cases h; rfl) (fun q r h => by cases h; rfl)
    (by decide) (by decide) (by decide) (by decide) (by decide)

/-- C10: packing an event and payload through the main-thread marshaller
round-trips — `emit_event_main_thread` delivers `emit_event` the packed
tuple with a `None` (falsy) message, which unpacks it so every listener is
called with the original event name and payload; and a truthy message next
to a tuple event suppresses the unpacking, the tuple itself being passed
to the listeners as the event name. -/
theorem c10_event_roundtrip {α : Type} (listeners : List (PyVal → PyVal → α))
    (event message m : PyVal) (hm : m.truthy = true) :
    emit_event_main_thread listeners event message
        = listeners.map (fun f => f event message)
      ∧ emit_event listeners (.tup event message) m
        = listeners.map (fun f => f (.tup event message) m) := by
  constructor
  · rfl
  · have hred : emit_event listeners (.tup event message) m
        = if m.truthy then listeners.map (fun f => f (.tup event message) m)
          else listeners.map (fun f => f event message) := rfl
    rw [hred, if_pos hm]

/-- C10, witness: instantiation with one listener, a string event, an
integer payload and the truthy message `True`. -/
theorem c10_witness :
    (PyVal.pyBool true).truthy = true
    ∧ (emit_event_main_thread [fun (a _ : PyVal) => a] (PyVal.pyStr "scan")
          (PyVal.pyInt 5)
        = List.map (fun f => f (PyVal.pyStr "scan") (PyVal.pyInt 5))
            [fun (a _ : PyVal) => a])
    ∧ (emit_event [fun (a _ : PyVal) => a]
          (PyVal.tup (PyVal.pyStr "scan") (PyVal.pyInt 5)) (PyVal.pyBool true)
        = List.map
            (fun f => f (PyVal.tup (PyVal.pyStr "scan") (PyVal.pyInt 5))
              (PyVal.pyBool true))
            [fun (a _ : PyVal) => a]) :=
  ⟨rfl,
   (c10_event_roundtrip [fun (a _ : PyVal) => a] (PyVal.pyStr "scan")
     (PyVal.pyInt 5) (PyVal.pyBool true) rfl).1,
   (c10_event_roundtrip [fun (a _ : PyVal) => a] (PyVal.pyStr "scan")
     (PyVal.pyInt 5) (PyVal.pyBool true) rfl).2⟩

end Cozy
